import Mathlib

/-!
Shallow embedding of `src/stringpool.rs` from the `axmldecoder` repository:
the string-pool chunk decoder (`StringPool::read_from_file`, `StringPool::get`,
`parse_utf8_string`, `parse_utf16_string`), together with theorems settling the
specification claims about it.

A Rust `Cursor`-style seekable byte stream is modelled as an immutable byte
list `d : List Nat` plus a position `pos : Nat`; every stream operation
returns the value read together with the new position.  Fallible operations
return `Except Err`; Rust panics (`assert_eq!`, `.unwrap()`, debug-build
arithmetic overflow) are modelled as the `Err.fatal` outcome and
`unimplemented!()` as `Err.unimplemented`.
-/

set_option linter.unusedVariables false

namespace Axml

/-- Error outcomes of the decoder.  `eof` models a `ParseError` produced by a
failed read (short read / EOF); `fatal` models a Rust panic
(`assert_eq!` failure, `.unwrap()` on a decode error, arithmetic overflow);
`unimplemented` models `unimplemented!()`. -/
inductive Err where
  | eof
  | fatal
  | unimplemented
  deriving DecidableEq

/-- Modelled from the spec: the primitive byte-reading utilities
(`read_u8`/`read_u16`/`read_u32` in `lib.rs`, outside `src/`) read fixed-width
little-endian unsigned integers from the stream and are fallible on short
read.  `read_u8` reads the byte at the current position and advances by 1. -/
def read_u8 (d : List Nat) (pos : Nat) : Except Err (Nat × Nat) :=
  match d[pos]? with
  | some b => .ok (b, pos + 1)
  | none => .error .eof

/-- Modelled from the spec: `read_u16` reads two bytes, little-endian. -/
def read_u16 (d : List Nat) (pos : Nat) : Except Err (Nat × Nat) := do
  let (b0, pos) ← read_u8 d pos
  let (b1, pos) ← read_u8 d pos
  .ok (b0 + 256 * b1, pos)

/-- Modelled from the spec: `read_u32` reads four bytes, little-endian
(equivalently: two little-endian 16-bit halves, low half first). -/
def read_u32 (d : List Nat) (pos : Nat) : Except Err (Nat × Nat) := do
  let (lo, pos) ← read_u16 d pos
  let (hi, pos) ← read_u16 d pos
  .ok (lo + 65536 * hi, pos)

/-- Checked `u32` subtraction: models Rust `a - b` on `u32`, which panics on
underflow (debug-build overflow check; the same builds in which the
`assert_eq!` in `read_from_file` is active). -/
def u32checkedSub (a b : Nat) : Except Err Nat :=
  if a < b then .error .fatal else .ok (a - b)

/-- A Rust `String` is modelled as its sequence of Unicode scalar values. -/
abbrev RString := List Nat

/-- `c` is a Unicode scalar value (what a Rust `char` can hold). -/
def IsScalar (c : Nat) : Prop :=
  c < 0x110000 ∧ ¬(0xD800 ≤ c ∧ c ≤ 0xDFFF)

instance (c : Nat) : Decidable (IsScalar c) := by
  unfold IsScalar; infer_instance

/-- One step of strict UTF-8 decoding: given the first byte `b` and the
remaining bytes, decode one scalar value and return it together with how many
of the remaining bytes it consumed.  Rejects overlong forms, surrogates,
values above `0x10FFFF`, and stray or missing continuation bytes, exactly as
Rust's `String::from_utf8` validation does. -/
def utf8DecodeOne (b : Nat) (rest : List Nat) : Option (Nat × Nat) :=
  if b < 0x80 then some (b, 0)
  else if b < 0xC0 then none
  else if b < 0xE0 then
    match rest with
    | b1 :: _ =>
      if 0x80 ≤ b1 ∧ b1 < 0xC0 then
        let c := (b - 0xC0) * 0x40 + (b1 - 0x80)
        if 0x80 ≤ c then some (c, 1) else none
      else none
    | [] => none
  else if b < 0xF0 then
    match rest with
    | b1 :: b2 :: _ =>
      if (0x80 ≤ b1 ∧ b1 < 0xC0) ∧ (0x80 ≤ b2 ∧ b2 < 0xC0) then
        let c := (b - 0xE0) * 0x1000 + (b1 - 0x80) * 0x40 + (b2 - 0x80)
        if 0x800 ≤ c ∧ ¬(0xD800 ≤ c ∧ c ≤ 0xDFFF) then some (c, 2)
        else none
      else none
    | _ => none
  else if b < 0xF8 then
    match rest with
    | b1 :: b2 :: b3 :: _ =>
      if (0x80 ≤ b1 ∧ b1 < 0xC0) ∧ (0x80 ≤ b2 ∧ b2 < 0xC0) ∧
          (0x80 ≤ b3 ∧ b3 < 0xC0) then
        let c := (b - 0xF0) * 0x40000 + (b1 - 0x80) * 0x1000 +
          (b2 - 0x80) * 0x40 + (b3 - 0x80)
        if 0x10000 ≤ c ∧ c < 0x110000 then some (c, 3)
        else none
      else none
    | _ => none
  else none

/-- Fuel-driven UTF-8 decoding loop; each decoded scalar consumes one unit of
fuel and at least one byte, so fuel equal to the byte count always suffices. -/
def from_utf8Loop : Nat → List Nat → Option (List Nat)
  | _, [] => some []
  | 0, _ :: _ => none
  | fuel + 1, b :: rest =>
    match utf8DecodeOne b rest with
    | some ck => (from_utf8Loop fuel (rest.drop ck.2)).map (ck.1 :: ·)
    | none => none

/-- Models `String::from_utf8` from the Rust standard library (external to the
repository): strict UTF-8 decoding of a byte sequence into scalar values. -/
def from_utf8 (bs : List Nat) : Option (List Nat) :=
  from_utf8Loop bs.length bs

/-- One step of UTF-16 decoding: decode one scalar value from the first code
unit `u` and the remaining units, returning the number of extra units
consumed; surrogates are paired and unpaired surrogates fail, exactly as
Rust's `String::from_utf16` does. -/
def utf16DecodeOne (u : Nat) (rest : List Nat) : Option (Nat × Nat) :=
  if u < 0xD800 ∨ 0xE000 ≤ u then some (u, 0)
  else if u < 0xDC00 then
    match rest with
    | u2 :: _ =>
      if 0xDC00 ≤ u2 ∧ u2 < 0xE000 then
        some (0x10000 + (u - 0xD800) * 0x400 + (u2 - 0xDC00), 1)
      else none
    | [] => none
  else none

/-- Fuel-driven UTF-16 decoding loop; fuel equal to the unit count always
suffices. -/
def from_utf16Loop : Nat → List Nat → Option (List Nat)
  | _, [] => some []
  | 0, _ :: _ => none
  | fuel + 1, u :: rest =>
    match utf16DecodeOne u rest with
    | some ck => (from_utf16Loop fuel (rest.drop ck.2)).map (ck.1 :: ·)
    | none => none

/-- Models `String::from_utf16` from the Rust standard library (external to
the repository): UTF-16 decoding of a code-unit sequence into scalar
values. -/
def from_utf16 (us : List Nat) : Option (List Nat) :=
  from_utf16Loop us.length us

/-- Modelled from the spec: the generic chunk descriptor `ChunkHeader`
(defined in `lib.rs`, outside `src/`): "a self-describing binary record with a
declared total size".  Its binary form is the standard 8-byte chunk header of
the container format: chunk type (`u16`), header size (`u16`), total chunk
size (`u32`); only the `size` field is used by this decoder. -/
structure ChunkHeader where
  typ : Nat
  header_size : Nat
  size : Nat
  deriving DecidableEq

/-- Byte size of the in-memory `ChunkHeader` struct: two `u16` fields and one
`u32` field, 8 bytes with no padding. -/
def CHUNK_HEADER_BYTES : Nat := 8

/-- `StringPoolHeader` (`stringpool.rs` lines 8–16): the cloned generic chunk
descriptor plus the five `u32` header fields. -/
structure StringPoolHeader where
  chunk_header : ChunkHeader
  string_count : Nat
  style_count : Nat
  flags : Nat
  string_start : Nat
  style_start : Nat
  deriving DecidableEq

/-- `const STRINGPOOL_HEADER_SIZE: usize = std::mem::size_of::<StringPoolHeader>()`
(`stringpool.rs` line 71).  The struct embeds the 8-byte `ChunkHeader`
followed by five `u32` fields (20 bytes); Rust lays this out with no padding,
so its size is 28 bytes. -/
def STRINGPOOL_HEADER_SIZE : Nat := CHUNK_HEADER_BYTES + 20

/-- `StringPoolHeader::read_from_file` (`stringpool.rs` lines 19–42): reads
the five consecutive `u32` fields and stores a clone of the chunk header. -/
def StringPoolHeader.read_from_file (d : List Nat) (pos : Nat)
    (chunk_header : ChunkHeader) : Except Err (StringPoolHeader × Nat) := do
  let (string_count, pos) ← read_u32 d pos
  let (style_count, pos) ← read_u32 d pos
  let (flags, pos) ← read_u32 d pos
  let (string_start, pos) ← read_u32 d pos
  let (style_start, pos) ← read_u32 d pos
  .ok (⟨chunk_header, string_count, style_count, flags, string_start,
    style_start⟩, pos)

/-- `is_high_bit_set_16` (`stringpool.rs` lines 133–135). -/
def is_high_bit_set_16 (input : Nat) : Bool :=
  input &&& (1 <<< 15) != 0

/-- `is_high_bit_set_8` (`stringpool.rs` lines 159–161). -/
def is_high_bit_set_8 (input : Nat) : Bool :=
  input &&& (1 <<< 7) != 0

/-- The `for _ in 0..len` loop of `parse_utf16_string`: reads `n` consecutive
16-bit units. -/
def readUnits16 (d : List Nat) : Nat → Nat → Except Err (List Nat × Nat)
  | 0, pos => .ok ([], pos)
  | n + 1, pos => do
    let (u, pos) ← read_u16 d pos
    let (us, pos) ← readUnits16 d n pos
    .ok (u :: us, pos)

/-- The `for _ in 0..len` loop of `parse_utf8_string`: reads `n` consecutive
bytes. -/
def readBytes8 (d : List Nat) : Nat → Nat → Except Err (List Nat × Nat)
  | 0, pos => .ok ([], pos)
  | n + 1, pos => do
    let (b, pos) ← read_u8 d pos
    let (bs, pos) ← readBytes8 d n pos
    .ok (b :: bs, pos)

/-- `parse_utf16_string` (`stringpool.rs` lines 114–131). -/
def parse_utf16_string (d : List Nat) (pos : Nat) :
    Except Err (RString × Nat) := do
  let (len, pos) ← read_u16 d pos
  if is_high_bit_set_16 len then .error .unimplemented else do
  let (s, pos) ← readUnits16 d len pos
  -- Encoded string length does not include the trailing 0
  let (_, pos) ← read_u16 d pos
  match from_utf16 s with
  | some str => .ok (str, pos)
  | none => .error .fatal

/-- `parse_utf8_string` (`stringpool.rs` lines 137–157). -/
def parse_utf8_string (d : List Nat) (pos : Nat) :
    Except Err (RString × Nat) := do
  let (_, pos) ← read_u8 d pos
  let (len, pos) ← read_u8 d pos
  if is_high_bit_set_8 len then .error .unimplemented else do
  let (s, pos) ← readBytes8 d len pos
  -- Encoded string length does not include the trailing 0
  let (_, pos) ← read_u8 d pos
  match from_utf8 s with
  | some str => .ok (str, pos)
  | none => .error .fatal

/-- `StringPool` (`stringpool.rs` lines 45–49).  The `Rc<String>` handles are
modelled by their content. -/
structure StringPool where
  header : StringPoolHeader
  strings : List RString
  deriving DecidableEq

/-- The offset-table loop of `StringPool::read_from_file` (lines 65–69):
reads `string_count` consecutive `u32` offsets. -/
def readOffsets (d : List Nat) : Nat → Nat → Except Err (List Nat × Nat)
  | 0, pos => .ok ([], pos)
  | n + 1, pos => do
    let (o, pos) ← read_u32 d pos
    let (os, pos) ← readOffsets d n pos
    .ok (o :: os, pos)

/-- The string-decoding loop of `StringPool::read_from_file` (lines 82–92):
for each offset, seek from the current position (initially
`string_data_start`) forward by the offset, decode one string in the selected
encoding, then seek back to `string_data_start`. -/
def readStrings (d : List Nat) (flag_is_utf8 : Bool) (string_data_start : Nat) :
    List Nat → Nat → Except Err (List RString × Nat)
  | [], pos => .ok ([], pos)
  | offset :: rest, pos =>
    (if flag_is_utf8 then parse_utf8_string d (pos + offset)
      else parse_utf16_string d (pos + offset)) >>= fun sr =>
    readStrings d flag_is_utf8 string_data_start rest string_data_start
      >>= fun ssp => .ok (sr.1 :: ssp.1, ssp.2)

/-- `StringPool::read_from_file` (`stringpool.rs` lines 52–103).
`assert_eq!(style_count, 0)` is the `Err.fatal` branch; the two
`SeekFrom::Start`/`SeekFrom::Current` pairs are the absolute position
assignments; the two `u32` subtractions of `STRINGPOOL_HEADER_SIZE` are
checked as in the source. -/
def StringPool.read_from_file (d : List Nat) (pos : Nat)
    (chunk_header : ChunkHeader) : Except Err (StringPool × Nat) := do
  let (string_pool_header, pos) ←
    StringPoolHeader.read_from_file d pos chunk_header
  if string_pool_header.style_count ≠ 0 then .error .fatal else do
  let flag_is_utf8 := string_pool_header.flags &&& (1 <<< 8) != 0
  -- Save current position in the file stream
  let chunk_data_start := pos
  let (offsets, _) ← readOffsets d string_pool_header.string_count pos
  let s ← u32checkedSub string_pool_header.string_start STRINGPOOL_HEADER_SIZE
  -- Save current position in the file stream
  let string_data_start := chunk_data_start + s
  let (strings, _) ← readStrings d flag_is_utf8 string_data_start offsets
    string_data_start
  let s2 ← u32checkedSub string_pool_header.chunk_header.size
    STRINGPOOL_HEADER_SIZE
  .ok (⟨string_pool_header, strings⟩, chunk_data_start + s2)

/-- `StringPool::get` (`stringpool.rs` lines 105–111).  `u32::try_from(i)`
panics for `i ≥ 2^32`; the sentinel `u32::MAX` returns `None`; otherwise
`self.strings.get(i).unwrap()` panics when out of range. -/
def StringPool.get (p : StringPool) (i : Nat) : Except Err (Option RString) :=
  if i ≥ 2 ^ 32 then .error .fatal
  else if i = 0xFFFFFFFF then .ok none
  else
    match p.strings[i]? with
    | some s => .ok (some s)
    | none => .error .fatal

/-! ### Spec-side definitions

Encoders written from the specification's words, used to state the
round-trip and layout claims. -/

/-- Modelled from the spec: `HEADER_SIZE` as the spec describes it — "the
fixed byte size of the five header fields", i.e. 20 bytes. -/
def SPEC_HEADER_SIZE : Nat := 20

/-- Little-endian byte encoding of a 16-bit value. -/
def u16le (v : Nat) : List Nat := [v % 256, v / 256 % 256]

/-- Little-endian byte encoding of a 32-bit value. -/
def u32le (v : Nat) : List Nat :=
  [v % 256, v / 256 % 256, v / 65536 % 256, v / 16777216 % 256]

/-- UTF-8 encoding of one Unicode scalar value (the encoder inverse of
`from_utf8`, used to state round-trip claims). -/
def Utf8.encodeChar (c : Nat) : List Nat :=
  if c < 0x80 then [c]
  else if c < 0x800 then [0xC0 + c / 0x40, 0x80 + c % 0x40]
  else if c < 0x10000 then
    [0xE0 + c / 0x1000, 0x80 + c / 0x40 % 0x40, 0x80 + c % 0x40]
  else
    [0xF0 + c / 0x40000, 0x80 + c / 0x1000 % 0x40, 0x80 + c / 0x40 % 0x40,
      0x80 + c % 0x40]

/-- UTF-8 encoding of a string. -/
def Utf8.encode : List Nat → List Nat
  | [] => []
  | c :: cs => Utf8.encodeChar c ++ Utf8.encode cs

/-- UTF-16 encoding of one Unicode scalar value, as a list of code units. -/
def Utf16.encodeChar (c : Nat) : List Nat :=
  if c < 0x10000 then [c]
  else [0xD800 + (c - 0x10000) / 0x400, 0xDC00 + (c - 0x10000) % 0x400]

/-- UTF-16 encoding of a string, as a list of code units. -/
def Utf16.encode : List Nat → List Nat
  | [] => []
  | c :: cs => Utf16.encodeChar c ++ Utf16.encode cs

/-- Modelled from the spec (§4.3): the byte form of one UTF-8 string entry —
one discarded byte, one length byte, the raw bytes, a trailing zero byte. -/
def encodeUtf8Entry (s : RString) : List Nat :=
  0 :: (Utf8.encode s).length :: (Utf8.encode s ++ [0])

/-- Modelled from the spec (§4.4): the byte form of one UTF-16 string entry —
a 16-bit length unit, the code units, a trailing 16-bit zero unit, all
little-endian. -/
def encodeUtf16Entry (s : RString) : List Nat :=
  u16le (Utf16.encode s).length ++
    (((Utf16.encode s).map u16le).flatten ++ [0, 0])

/-- One encoded entry in the selected encoding. -/
def entryOf (utf8 : Bool) (s : RString) : List Nat :=
  if utf8 then encodeUtf8Entry s else encodeUtf16Entry s

/-- The concatenated string-data region. -/
def entriesJoin (utf8 : Bool) (strs : List RString) : List Nat :=
  (strs.map (entryOf utf8)).flatten

/-- Offsets of the entries within the string-data region, starting at `acc`. -/
def offsetsOf (utf8 : Bool) : Nat → List RString → List Nat
  | _, [] => []
  | acc, s :: rest => acc :: offsetsOf utf8 (acc + (entryOf utf8 s).length) rest

/-- Modelled from the spec (§6): the byte layout of a string-pool chunk
payload — five little-endian `u32` header fields (string count, style count,
flags with bit 8 selecting UTF-8, string-data start offset, style start),
then the offset table, then the string-data region.  `hdrSize` is the header
size used to express `string_start`: the region begins `hdrSize + 4·count`
bytes past the point `string_start` is measured from. -/
def encodePool (hdrSize : Nat) (utf8 : Bool) (strs : List RString) : List Nat :=
  u32le strs.length ++ u32le 0 ++ u32le (if utf8 then 256 else 0) ++
    u32le (hdrSize + 4 * strs.length) ++ u32le 0 ++
    ((offsetsOf utf8 0 strs).map u32le).flatten ++ entriesJoin utf8 strs

/-- Declared total chunk size for an encoded pool: the 8-byte generic chunk
header, the 20-byte string-pool header, the offset table and the data. -/
def poolChunkSize (utf8 : Bool) (strs : List RString) : Nat :=
  28 + 4 * strs.length + (entriesJoin utf8 strs).length

/-- Forgets the `style_start` header field of a decode result (used to state
that nothing else depends on it). -/
def eraseStyleStart (r : StringPool × Nat) : StringPool × Nat :=
  ({ r.1 with header := { r.1.header with style_start := 0 } }, r.2)

/-- Modelled from the spec: the claim's string-data anchor, written exactly as
the spec describes it — "seek to `data_start`, then advance by
`string_start − HEADER_SIZE`" with `HEADER_SIZE` = 20. -/
def spec_string_data_start (data_start string_start : Nat) : Nat :=
  data_start + (string_start - SPEC_HEADER_SIZE)

/-- Each string entry of a pool is within the length-representable range for
its encoding; this is the side condition of the round-trip statement. -/
def FitsShort (utf8 : Bool) (s : RString) : Prop :=
  (∀ c ∈ s, IsScalar c) ∧
    (if utf8 then (Utf8.encode s).length < 128
     else (Utf16.encode s).length < 32768)

instance (utf8 : Bool) (s : RString) : Decidable (FitsShort utf8 s) := by
  unfold FitsShort
  infer_instance

deriving instance DecidableEq for Except

/-- A concrete 40-byte chunk payload used in witnesses and counterexamples:
string_count 1, style_count 0, flags 0x100 (UTF-8), string_start 36,
style_start 0; one offset `0`; the entry `[0x00, 1, 'a', 0x00]` sits at
byte 28 (where the code's arithmetic points) while the entry
`[0x00, 1, 'b', 0x00]` sits at byte 36 (where the spec's arithmetic would
point). -/
def sampleData : List Nat :=
  [1, 0, 0, 0,  0, 0, 0, 0,  0, 1, 0, 0,  36, 0, 0, 0,  0, 0, 0, 0,
   0, 0, 0, 0,  9, 9, 9, 9,  0, 1, 0x61, 0,  9, 9, 9, 9,  0, 1, 0x62, 0]

/-- The chunk descriptor for `sampleData`: declared total size 48 = 8-byte
generic header + 40-byte payload. -/
def sampleCh : ChunkHeader := ⟨0, 28, 48⟩

/-- The pool that decoding `sampleData` produces. -/
def samplePool : StringPool := ⟨⟨sampleCh, 1, 0, 256, 36, 0⟩, [[0x61]]⟩

/-- `sampleData` with only the `style_start` header field changed (byte 16 is
7 instead of 0). -/
def sampleDataStyle : List Nat :=
  [1, 0, 0, 0,  0, 0, 0, 0,  0, 1, 0, 0,  36, 0, 0, 0,  7, 0, 0, 0,
   0, 0, 0, 0,  9, 9, 9, 9,  0, 1, 0x61, 0,  9, 9, 9, 9,  0, 1, 0x62, 0]

/-- A 20-byte input: the header is complete (string_count 1, style_count 0)
but the offset table is missing. -/
def shortOffsetsData : List Nat :=
  [1, 0, 0, 0,  0, 0, 0, 0,  0, 0, 0, 0,  0, 0, 0, 0,  0, 0, 0, 0]

/-- A 24-byte input: header (string_count 1, flags UTF-8, string_start 28)
and one offset `9`, but the string data lies beyond the end of the input. -/
def shortStringData : List Nat :=
  [1, 0, 0, 0,  0, 0, 0, 0,  0, 1, 0, 0,  28, 0, 0, 0,  0, 0, 0, 0,
   9, 0, 0, 0]

/-- A 35-byte input with two strings (string_count 2, flags UTF-8,
string_start 36, offsets `[0, 4]`): the first entry decodes to `"a"`, but the
second entry's length byte announces 5 content bytes and the input ends
after one of them, so its read runs off the end of the stream. -/
def gap2Data : List Nat :=
  [2, 0, 0, 0,  0, 0, 0, 0,  0, 1, 0, 0,  36, 0, 0, 0,  0, 0, 0, 0,
   0, 0, 0, 0,  4, 0, 0, 0,  0, 1, 0x61, 0,  0, 5, 0x62]

/-! ### Basic lemmas about the stream primitives -/

theorem okBind {α β : Type} (a : α) (f : α → Except Err β) :
    (Except.ok a >>= f) = f a := rfl

theorem errorBind {α β : Type} (e : Err) (f : α → Except Err β) :
    ((Except.error e : Except Err α) >>= f) = .error e := rfl

theorem mapOk {α β : Type} (f : α → β) (a : α) :
    Except.map f (.ok a : Except Err α) = .ok (f a) := rfl

theorem mapError {α β : Type} (f : α → β) (e : Err) :
    Except.map f (.error e : Except Err α) = .error e := rfl

theorem drop_cons_elim {d : List Nat} {pos b : Nat} {t : List Nat}
    (h : d.drop pos = b :: t) : d[pos]? = some b ∧ d.drop (pos + 1) = t := by
  constructor
  · have h0 := List.getElem?_drop d pos 0
    rw [h] at h0
    simpa using h0.symm
  · have h1 := List.drop_drop 1 pos d
    rw [h] at h1
    simpa using h1.symm

theorem drop_append_elim {d A B : List Nat} {pos : Nat}
    (h : d.drop pos = A ++ B) : d.drop (pos + A.length) = B := by
  have h1 := List.drop_drop A.length pos d
  rw [h, List.drop_left] at h1
  exact h1.symm

theorem read_u8_some {d : List Nat} {pos b : Nat} (h : d[pos]? = some b) :
    read_u8 d pos = .ok (b, pos + 1) := by
  unfold read_u8
  rw [h]

theorem read_u8_drop {d : List Nat} {pos b : Nat} {t : List Nat}
    (h : d.drop pos = b :: t) : read_u8 d pos = .ok (b, pos + 1) :=
  read_u8_some (drop_cons_elim h).1

theorem read_u8_eof {d : List Nat} {pos : Nat} (h : d.length ≤ pos) :
    read_u8 d pos = .error .eof := by
  unfold read_u8
  rw [List.getElem?_eq_none h]

theorem read_u8_ok_elim {d : List Nat} {pos b p' : Nat}
    (h : read_u8 d pos = .ok (b, p')) : p' = pos + 1 ∧ pos + 1 ≤ d.length := by
  unfold read_u8 at h
  cases hg : d[pos]? with
  | none => rw [hg] at h; exact absurd h (by simp)
  | some x =>
    rw [hg] at h
    have hb : x = b ∧ pos + 1 = p' := by
      simpa using h
    refine ⟨hb.2.symm, ?_⟩
    by_contra hlen
    rw [List.getElem?_eq_none (by omega)] at hg
    exact absurd hg (by simp)

theorem read_u8_err_elim {d : List Nat} {pos : Nat} {e : Err}
    (h : read_u8 d pos = .error e) : e = .eof := by
  unfold read_u8 at h
  cases hg : d[pos]? with
  | none => rw [hg] at h; simpa using h.symm
  | some x => rw [hg] at h; exact absurd h (by simp)

theorem read_u16_drop {d : List Nat} {pos b0 b1 : Nat} {t : List Nat}
    (h : d.drop pos = b0 :: b1 :: t) :
    read_u16 d pos = .ok (b0 + 256 * b1, pos + 2) := by
  obtain ⟨h0, h1⟩ := drop_cons_elim h
  obtain ⟨h1a, _⟩ := drop_cons_elim h1
  unfold read_u16
  rw [read_u8_some h0]
  simp only [okBind]
  rw [read_u8_some h1a]
  simp only [okBind]

theorem read_u16_ok_elim {d : List Nat} {pos v p' : Nat}
    (h : read_u16 d pos = .ok (v, p')) : p' = pos + 2 ∧ pos + 2 ≤ d.length := by
  unfold read_u16 at h
  cases h0 : read_u8 d pos with
  | error e => rw [h0, errorBind] at h; exact absurd h (by simp)
  | ok r0 =>
    obtain ⟨b0, p0⟩ := r0
    obtain ⟨hp0, hl0⟩ := read_u8_ok_elim h0
    rw [h0] at h
    simp only [okBind] at h
    cases h1 : read_u8 d p0 with
    | error e => rw [h1, errorBind] at h; exact absurd h (by simp)
    | ok r1 =>
      obtain ⟨b1, p1⟩ := r1
      obtain ⟨hp1, hl1⟩ := read_u8_ok_elim h1
      rw [h1] at h
      simp only [okBind] at h
      have : b0 + 256 * b1 = v ∧ p1 = p' := by simpa using h
      omega

theorem read_u16_err_elim {d : List Nat} {pos : Nat} {e : Err}
    (h : read_u16 d pos = .error e) : e = .eof := by
  unfold read_u16 at h
  cases h0 : read_u8 d pos with
  | error e0 =>
    rw [h0, errorBind] at h
    have h00 := read_u8_err_elim h0
    have he : e0 = e := by simpa using h
    subst he; exact h00
  | ok r0 =>
    obtain ⟨b0, p0⟩ := r0
    rw [h0] at h
    simp only [okBind] at h
    cases h1 : read_u8 d p0 with
    | error e1 =>
      rw [h1, errorBind] at h
      have h11 := read_u8_err_elim h1
      have he : e1 = e := by simpa using h
      subst he; exact h11
    | ok r1 =>
      obtain ⟨b1, p1⟩ := r1
      rw [h1] at h
      simp only [okBind] at h
      exact absurd h (by simp)

theorem read_u16_eof {d : List Nat} {pos : Nat} (h : d.length < pos + 2) :
    read_u16 d pos = .error .eof := by
  cases hr : read_u16 d pos with
  | ok r =>
    obtain ⟨v, p'⟩ := r
    have := read_u16_ok_elim hr
    omega
  | error e => rw [read_u16_err_elim hr]

theorem read_u32_drop {d : List Nat} {pos b0 b1 b2 b3 : Nat} {t : List Nat}
    (h : d.drop pos = b0 :: b1 :: b2 :: b3 :: t) :
    read_u32 d pos =
      .ok (b0 + 256 * b1 + 65536 * b2 + 16777216 * b3, pos + 4) := by
  obtain ⟨_, h1⟩ := drop_cons_elim h
  obtain ⟨_, h2⟩ := drop_cons_elim h1
  unfold read_u32
  rw [read_u16_drop h]
  simp only [okBind]
  rw [read_u16_drop h2]
  simp only [okBind]
  have hv : b0 + 256 * b1 + 65536 * (b2 + 256 * b3)
      = b0 + 256 * b1 + 65536 * b2 + 16777216 * b3 := by ring
  rw [hv]

theorem read_u32_ok_elim {d : List Nat} {pos v p' : Nat}
    (h : read_u32 d pos = .ok (v, p')) : p' = pos + 4 ∧ pos + 4 ≤ d.length := by
  unfold read_u32 at h
  cases h0 : read_u16 d pos with
  | error e => rw [h0, errorBind] at h; exact absurd h (by simp)
  | ok r0 =>
    obtain ⟨lo, p0⟩ := r0
    obtain ⟨hp0, hl0⟩ := read_u16_ok_elim h0
    rw [h0] at h
    simp only [okBind] at h
    cases h1 : read_u16 d p0 with
    | error e => rw [h1, errorBind] at h; exact absurd h (by simp)
    | ok r1 =>
      obtain ⟨hi, p1⟩ := r1
      obtain ⟨hp1, hl1⟩ := read_u16_ok_elim h1
      rw [h1] at h
      simp only [okBind] at h
      have : lo + 65536 * hi = v ∧ p1 = p' := by simpa using h
      omega

theorem read_u32_err_elim {d : List Nat} {pos : Nat} {e : Err}
    (h : read_u32 d pos = .error e) : e = .eof := by
  unfold read_u32 at h
  cases h0 : read_u16 d pos with
  | error e0 =>
    rw [h0, errorBind] at h
    have h00 := read_u16_err_elim h0
    have he : e0 = e := by simpa using h
    subst he; exact h00
  | ok r0 =>
    obtain ⟨lo, p0⟩ := r0
    rw [h0] at h
    simp only [okBind] at h
    cases h1 : read_u16 d p0 with
    | error e1 =>
      rw [h1, errorBind] at h
      have h11 := read_u16_err_elim h1
      have he : e1 = e := by simpa using h
      subst he; exact h11
    | ok r1 =>
      obtain ⟨hi, p1⟩ := r1
      rw [h1] at h
      simp only [okBind] at h
      exact absurd h (by simp)

theorem read_u32_eof {d : List Nat} {pos : Nat} (h : d.length < pos + 4) :
    read_u32 d pos = .error .eof := by
  cases hr : read_u32 d pos with
  | ok r =>
    obtain ⟨v, p'⟩ := r
    have := read_u32_ok_elim hr
    omega
  | error e => rw [read_u32_err_elim hr]

theorem read_u16_u16le {d : List Nat} {pos v : Nat} {t : List Nat}
    (h : d.drop pos = u16le v ++ t) (hv : v < 65536) :
    read_u16 d pos = .ok (v, pos + 2) := by
  have h' : d.drop pos = v % 256 :: (v / 256 % 256) :: t := by
    simpa [u16le] using h
  rw [read_u16_drop h']
  have : v % 256 + 256 * (v / 256 % 256) = v := by omega
  rw [this]

theorem read_u32_u32le {d : List Nat} {pos v : Nat} {t : List Nat}
    (h : d.drop pos = u32le v ++ t) (hv : v < 4294967296) :
    read_u32 d pos = .ok (v, pos + 4) := by
  have h' : d.drop pos = v % 256 :: (v / 256 % 256) :: (v / 65536 % 256)
      :: (v / 16777216 % 256) :: t := by
    simpa [u32le] using h
  rw [read_u32_drop h']
  have : v % 256 + 256 * (v / 256 % 256) + 65536 * (v / 65536 % 256)
      + 16777216 * (v / 16777216 % 256) = v := by omega
  rw [this]

/-! ### Header-reader lemmas -/

theorem u16le_length (v : Nat) : (u16le v).length = 2 := rfl

theorem u32le_length (v : Nat) : (u32le v).length = 4 := rfl

theorem header_read_drop (ch : ChunkHeader) {d : List Nat}
    {pos a b c e f : Nat} {t : List Nat}
    (h : d.drop pos = u32le a ++ (u32le b ++ (u32le c ++ (u32le e ++
      (u32le f ++ t)))))
    (ha : a < 4294967296) (hb : b < 4294967296) (hc : c < 4294967296)
    (he : e < 4294967296) (hf : f < 4294967296) :
    StringPoolHeader.read_from_file d pos ch = .ok (⟨ch, a, b, c, e, f⟩, pos + 20) := by
  have h1 : d.drop (pos + 4) = u32le b ++ (u32le c ++ (u32le e ++ (u32le f ++ t))) := by
    have := drop_append_elim h
    simpa using this
  have h2 : d.drop (pos + 8) = u32le c ++ (u32le e ++ (u32le f ++ t)) := by
    have := drop_append_elim h1
    simpa [Nat.add_assoc] using this
  have h3 : d.drop (pos + 12) = u32le e ++ (u32le f ++ t) := by
    have := drop_append_elim h2
    simpa [Nat.add_assoc] using this
  have h4 : d.drop (pos + 16) = u32le f ++ t := by
    have := drop_append_elim h3
    simpa [Nat.add_assoc] using this
  unfold StringPoolHeader.read_from_file
  rw [read_u32_u32le h ha]
  simp only [okBind]
  rw [read_u32_u32le h1 hb]
  simp only [okBind]
  rw [read_u32_u32le h2 hc]
  simp only [okBind]
  rw [read_u32_u32le h3 he]
  simp only [okBind]
  rw [read_u32_u32le h4 hf]
  simp only [okBind]

theorem header_ok_elim {d : List Nat} {pos p' : Nat} {ch : ChunkHeader}
    {hdr : StringPoolHeader}
    (h : StringPoolHeader.read_from_file d pos ch = .ok (hdr, p')) :
    p' = pos + 20 ∧ hdr.chunk_header = ch ∧ pos + 20 ≤ d.length := by
  unfold StringPoolHeader.read_from_file at h
  cases h0 : read_u32 d pos with
  | error e => rw [h0, errorBind] at h; exact absurd h (by simp)
  | ok r0 =>
  obtain ⟨v0, p0⟩ := r0
  obtain ⟨hp0, hl0⟩ := read_u32_ok_elim h0
  rw [h0] at h
  simp only [okBind] at h
  cases h1 : read_u32 d p0 with
  | error e => rw [h1, errorBind] at h; exact absurd h (by simp)
  | ok r1 =>
  obtain ⟨v1, p1⟩ := r1
  obtain ⟨hp1, hl1⟩ := read_u32_ok_elim h1
  rw [h1] at h
  simp only [okBind] at h
  cases h2 : read_u32 d p1 with
  | error e => rw [h2, errorBind] at h; exact absurd h (by simp)
  | ok r2 =>
  obtain ⟨v2, p2⟩ := r2
  obtain ⟨hp2, hl2⟩ := read_u32_ok_elim h2
  rw [h2] at h
  simp only [okBind] at h
  cases h3 : read_u32 d p2 with
  | error e => rw [h3, errorBind] at h; exact absurd h (by simp)
  | ok r3 =>
  obtain ⟨v3, p3⟩ := r3
  obtain ⟨hp3, hl3⟩ := read_u32_ok_elim h3
  rw [h3] at h
  simp only [okBind] at h
  cases h4 : read_u32 d p3 with
  | error e => rw [h4, errorBind] at h; exact absurd h (by simp)
  | ok r4 =>
  obtain ⟨v4, p4⟩ := r4
  obtain ⟨hp4, hl4⟩ := read_u32_ok_elim h4
  rw [h4] at h
  simp only [okBind] at h
  have hinj : (⟨ch, v0, v1, v2, v3, v4⟩ : StringPoolHeader) = hdr ∧ p4 = p' := by
    simpa using h
  obtain ⟨hh, hp⟩ := hinj
  refine ⟨by omega, ?_, by omega⟩
  rw [← hh]

theorem header_err_elim {d : List Nat} {pos : Nat} {ch : ChunkHeader} {e : Err}
    (h : StringPoolHeader.read_from_file d pos ch = .error e) : e = .eof := by
  unfold StringPoolHeader.read_from_file at h
  cases h0 : read_u32 d pos with
  | error e0 =>
    rw [h0, errorBind] at h
    have := read_u32_err_elim h0
    have he : e0 = e := by simpa using h
    subst he; exact this
  | ok r0 =>
  obtain ⟨v0, p0⟩ := r0
  rw [h0] at h
  simp only [okBind] at h
  cases h1 : read_u32 d p0 with
  | error e1 =>
    rw [h1, errorBind] at h
    have := read_u32_err_elim h1
    have he : e1 = e := by simpa using h
    subst he; exact this
  | ok r1 =>
  obtain ⟨v1, p1⟩ := r1
  rw [h1] at h
  simp only [okBind] at h
  cases h2 : read_u32 d p1 with
  | error e2 =>
    rw [h2, errorBind] at h
    have := read_u32_err_elim h2
    have he : e2 = e := by simpa using h
    subst he; exact this
  | ok r2 =>
  obtain ⟨v2, p2⟩ := r2
  rw [h2] at h
  simp only [okBind] at h
  cases h3 : read_u32 d p2 with
  | error e3 =>
    rw [h3, errorBind] at h
    have := read_u32_err_elim h3
    have he : e3 = e := by simpa using h
    subst he; exact this
  | ok r3 =>
  obtain ⟨v3, p3⟩ := r3
  rw [h3] at h
  simp only [okBind] at h
  cases h4 : read_u32 d p3 with
  | error e4 =>
    rw [h4, errorBind] at h
    have := read_u32_err_elim h4
    have he : e4 = e := by simpa using h
    subst he; exact this
  | ok r4 =>
  obtain ⟨v4, p4⟩ := r4
  rw [h4] at h
  simp only [okBind] at h
  exact absurd h (by simp)

/-! ### High-bit test lemmas -/

theorem high8_false {b : Nat} (h : b < 128) : is_high_bit_set_8 b = false := by
  unfold is_high_bit_set_8
  have hs : (1 : Nat) <<< 7 = 2 ^ 7 := by decide
  have ht : b.testBit 7 = false := by
    rw [Nat.testBit_to_div_mod]
    have hd : b / 2 ^ 7 = 0 := by omega
    simp [hd]
    omega
  have hand : b &&& 2 ^ 7 = 0 := by
    rw [Nat.and_two_pow, ht]
    rfl
  rw [hs, hand]
  rfl

theorem high16_false {n : Nat} (h : n < 32768) : is_high_bit_set_16 n = false := by
  unfold is_high_bit_set_16
  have hs : (1 : Nat) <<< 15 = 2 ^ 15 := by decide
  have ht : n.testBit 15 = false := by
    rw [Nat.testBit_to_div_mod]
    have hd : n / 2 ^ 15 = 0 := by omega
    simp [hd]
    omega
  have hand : n &&& 2 ^ 15 = 0 := by
    rw [Nat.and_two_pow, ht]
    rfl
  rw [hs, hand]
  rfl

/-! ### Loop lemmas -/

theorem readOffsets_ok_elim {d : List Nat} :
    ∀ {n pos p' : Nat} {os : List Nat},
    readOffsets d n pos = .ok (os, p') →
    os.length = n ∧ p' = pos + 4 * n ∧ pos + 4 * n ≤ d.length ∨ n = 0 := by
  intro n
  induction n with
  | zero => intro pos p' os h; exact Or.inr rfl
  | succ m ih =>
    intro pos p' os h
    left
    unfold readOffsets at h
    cases h0 : read_u32 d pos with
    | error e => rw [h0, errorBind] at h; exact absurd h (by simp)
    | ok r0 =>
    obtain ⟨v, p0⟩ := r0
    obtain ⟨hp0, hl0⟩ := read_u32_ok_elim h0
    rw [h0] at h
    simp only [okBind] at h
    cases h1 : readOffsets d m p0 with
    | error e => rw [h1, errorBind] at h; exact absurd h (by simp)
    | ok r1 =>
    obtain ⟨os1, p1⟩ := r1
    rw [h1] at h
    simp only [okBind] at h
    have hinj : v :: os1 = os ∧ p1 = p' := by simpa using h
    rcases ih h1 with ⟨hlen, hp1, hle⟩ | hz
    · obtain ⟨h1', h2'⟩ := hinj
      constructor
      · rw [← h1']; simp [hlen]
      · omega
    · subst hz
      unfold readOffsets at h1
      have : os1 = [] ∧ p0 = p1 := by
        constructor <;> [skip; skip] <;> simp_all
      obtain ⟨h1', h2'⟩ := hinj
      constructor
      · rw [← h1']; simp [this.1]
      · omega

theorem readOffsets_err_elim {d : List Nat} :
    ∀ {n pos : Nat} {e : Err}, readOffsets d n pos = .error e → e = .eof := by
  intro n
  induction n with
  | zero => intro pos e h; exact absurd h (by simp [readOffsets])
  | succ m ih =>
    intro pos e h
    unfold readOffsets at h
    cases h0 : read_u32 d pos with
    | error e0 =>
      rw [h0, errorBind] at h
      have := read_u32_err_elim h0
      have he : e0 = e := by simpa using h
      subst he; exact this
    | ok r0 =>
    obtain ⟨v, p0⟩ := r0
    rw [h0] at h
    simp only [okBind] at h
    cases h1 : readOffsets d m p0 with
    | error e1 =>
      rw [h1, errorBind] at h
      have := ih h1
      have he : e1 = e := by simpa using h
      subst he; exact this
    | ok r1 =>
    obtain ⟨os1, p1⟩ := r1
    rw [h1] at h
    simp only [okBind] at h
    exact absurd h (by simp)

theorem readOffsets_eof {d : List Nat} :
    ∀ {n pos : Nat}, 1 ≤ n → d.length < pos + 4 * n →
    readOffsets d n pos = .error .eof := by
  intro n
  induction n with
  | zero => omega
  | succ m ih =>
    intro pos _ hlen
    unfold readOffsets
    cases h0 : read_u32 d pos with
    | error e0 => rw [errorBind, read_u32_err_elim h0]
    | ok r0 =>
      obtain ⟨v, p0⟩ := r0
      obtain ⟨hp0, hl0⟩ := read_u32_ok_elim h0
      simp only [okBind]
      cases m with
      | zero => omega
      | succ m' =>
        rw [ih (by omega) (by omega)]
        rfl

theorem readOffsets_drop {d : List Nat} :
    ∀ {os : List Nat} {pos : Nat} {t : List Nat},
    d.drop pos = (os.map u32le).flatten ++ t →
    (∀ o ∈ os, o < 4294967296) →
    readOffsets d os.length pos = .ok (os, pos + 4 * os.length) := by
  intro os
  induction os with
  | nil => intro pos t h ho; simp [readOffsets]
  | cons o rest ih =>
    intro pos t h ho
    have h' : d.drop pos = u32le o ++ ((rest.map u32le).flatten ++ t) := by
      simpa [List.append_assoc] using h
    have hnext : d.drop (pos + 4) = (rest.map u32le).flatten ++ t := by
      have := drop_append_elim h'
      simpa using this
    show readOffsets d (rest.length + 1) pos = _
    unfold readOffsets
    rw [read_u32_u32le h' (ho o (by simp))]
    simp only [okBind]
    rw [ih hnext (fun x hx => ho x (by simp [hx]))]
    simp only [okBind]
    have : pos + 4 + 4 * rest.length = pos + 4 * (rest.length + 1) := by omega
    rw [this]
    simp

theorem readBytes8_drop {d : List Nat} :
    ∀ {bs : List Nat} {pos n : Nat} {t : List Nat},
    d.drop pos = bs ++ t → bs.length = n →
    readBytes8 d n pos = .ok (bs, pos + n) := by
  intro bs
  induction bs with
  | nil =>
    intro pos n t h hn
    subst hn
    simp [readBytes8]
  | cons b rest ih =>
    intro pos n t h hn
    subst hn
    show readBytes8 d (rest.length + 1) pos = _
    unfold readBytes8
    have h' : d.drop pos = b :: (rest ++ t) := by simpa using h
    rw [read_u8_drop h']
    simp only [okBind]
    rw [ih (drop_cons_elim h').2 rfl]
    simp only [okBind]
    have : pos + 1 + rest.length = pos + (rest.length + 1) := by omega
    rw [this]
    simp

theorem readBytes8_err_elim {d : List Nat} :
    ∀ {n pos : Nat} {e : Err}, readBytes8 d n pos = .error e → e = .eof := by
  intro n
  induction n with
  | zero => intro pos e h; exact absurd h (by simp [readBytes8])
  | succ m ih =>
    intro pos e h
    unfold readBytes8 at h
    cases h0 : read_u8 d pos with
    | error e0 =>
      rw [h0, errorBind] at h
      have := read_u8_err_elim h0
      have he : e0 = e := by simpa using h
      subst he; exact this
    | ok r0 =>
    obtain ⟨b, p0⟩ := r0
    rw [h0] at h
    simp only [okBind] at h
    cases h1 : readBytes8 d m p0 with
    | error e1 =>
      rw [h1, errorBind] at h
      have := ih h1
      have he : e1 = e := by simpa using h
      subst he; exact this
    | ok r1 =>
    obtain ⟨bs, p1⟩ := r1
    rw [h1] at h
    simp only [okBind] at h
    exact absurd h (by simp)

theorem readUnits16_drop {d : List Nat} :
    ∀ {us : List Nat} {pos n : Nat} {t : List Nat},
    d.drop pos = (us.map u16le).flatten ++ t → us.length = n →
    (∀ u ∈ us, u < 65536) →
    readUnits16 d n pos = .ok (us, pos + 2 * n) := by
  intro us
  induction us with
  | nil =>
    intro pos n t h hn hu
    subst hn
    simp [readUnits16]
  | cons u rest ih =>
    intro pos n t h hn hu
    subst hn
    show readUnits16 d (rest.length + 1) pos = _
    unfold readUnits16
    have h' : d.drop pos = u16le u ++ ((rest.map u16le).flatten ++ t) := by
      simpa [List.append_assoc] using h
    rw [read_u16_u16le h' (hu u (by simp))]
    simp only [okBind]
    have hnext : d.drop (pos + 2) = (rest.map u16le).flatten ++ t := by
      have := drop_append_elim h'
      simpa using this
    rw [ih hnext rfl (fun x hx => hu x (by simp [hx]))]
    simp only [okBind]
    have : pos + 2 + 2 * rest.length = pos + 2 * (rest.length + 1) := by omega
    rw [this]
    simp

theorem readUnits16_err_elim {d : List Nat} :
    ∀ {n pos : Nat} {e : Err}, readUnits16 d n pos = .error e → e = .eof := by
  intro n
  induction n with
  | zero => intro pos e h; exact absurd h (by simp [readUnits16])
  | succ m ih =>
    intro pos e h
    unfold readUnits16 at h
    cases h0 : read_u16 d pos with
    | error e0 =>
      rw [h0, errorBind] at h
      have := read_u16_err_elim h0
      have he : e0 = e := by simpa using h
      subst he; exact this
    | ok r0 =>
    obtain ⟨u, p0⟩ := r0
    rw [h0] at h
    simp only [okBind] at h
    cases h1 : readUnits16 d m p0 with
    | error e1 =>
      rw [h1, errorBind] at h
      have := ih h1
      have he : e1 = e := by simpa using h
      subst he; exact this
    | ok r1 =>
    obtain ⟨us, p1⟩ := r1
    rw [h1] at h
    simp only [okBind] at h
    exact absurd h (by simp)

theorem flatten_u16le_length (us : List Nat) :
    ((us.map u16le).flatten).length = 2 * us.length := by
  induction us with
  | nil => simp
  | cons u rest ih =>
    simp only [List.map_cons, List.flatten_cons, List.length_append,
      u16le_length, List.length_cons, ih]
    omega

theorem flatten_u32le_length (os : List Nat) :
    ((os.map u32le).flatten).length = 4 * os.length := by
  induction os with
  | nil => simp
  | cons o rest ih =>
    simp only [List.map_cons, List.flatten_cons, List.length_append,
      u32le_length, List.length_cons, ih]
    omega

/-! ### Parse-function evaluation lemmas -/

theorem parse_utf8_drop {d : List Nat} {pos l term : Nat}
    {content t : List Nat} {b0 : Nat}
    (h : d.drop pos = b0 :: l :: (content ++ term :: t))
    (hl : content.length = l) (hlt : l < 128) :
    parse_utf8_string d pos =
      (match from_utf8 content with
       | some s => .ok (s, pos + l + 3)
       | none => .error .fatal) := by
  obtain ⟨h0, h1⟩ := drop_cons_elim h
  obtain ⟨h1a, h2⟩ := drop_cons_elim h1
  unfold parse_utf8_string
  rw [read_u8_some h0]
  simp only [okBind]
  rw [read_u8_some h1a]
  simp only [okBind]
  rw [high8_false hlt]
  simp only [Bool.false_eq_true, if_false]
  rw [readBytes8_drop h2 hl]
  simp only [okBind]
  have hterm : d.drop (pos + 1 + 1 + l) = term :: t := by
    have := drop_append_elim h2
    rw [hl] at this
    exact this
  rw [read_u8_some (drop_cons_elim hterm).1]
  simp only [okBind]
  have : pos + 1 + 1 + l + 1 = pos + l + 3 := by omega
  rw [this]

theorem parse_utf16_drop {d : List Nat} {pos n : Nat}
    {us t : List Nat} {t0 t1 : Nat}
    (h : d.drop pos = u16le n ++ ((us.map u16le).flatten ++ (t0 :: t1 :: t)))
    (hn : us.length = n) (hlt : n < 32768) (hu : ∀ u ∈ us, u < 65536) :
    parse_utf16_string d pos =
      (match from_utf16 us with
       | some s => .ok (s, pos + 2 * n + 4)
       | none => .error .fatal) := by
  unfold parse_utf16_string
  rw [read_u16_u16le h (by omega)]
  simp only [okBind]
  rw [high16_false hlt]
  simp only [Bool.false_eq_true, if_false]
  have hunits : d.drop (pos + 2) = (us.map u16le).flatten ++ (t0 :: t1 :: t) := by
    have := drop_append_elim h
    simpa using this
  rw [readUnits16_drop hunits hn hu]
  simp only [okBind]
  have hterm : d.drop (pos + 2 + 2 * n) = t0 :: t1 :: t := by
    have := drop_append_elim hunits
    rw [flatten_u16le_length, hn] at this
    simpa [Nat.add_assoc] using this
  rw [read_u16_drop hterm]
  simp only [okBind]
  have : pos + 2 + 2 * n + 2 = pos + 2 * n + 4 := by omega
  rw [this]

/-! ### Codec round-trip lemmas -/

theorem from_utf8Loop_fuel : ∀ (fuel : Nat) (bs : List Nat),
    bs.length ≤ fuel → from_utf8Loop fuel bs = from_utf8Loop bs.length bs := by
  intro fuel
  induction fuel using Nat.strong_induction_on with
  | _ f ih =>
    intro bs hle
    cases bs with
    | nil => cases f <;> rfl
    | cons b rest =>
      cases f with
      | zero => simp at hle
      | succ f' =>
        rw [List.length_cons]
        unfold from_utf8Loop
        cases hdec : utf8DecodeOne b rest with
        | none => rfl
        | some ck =>
          show (from_utf8Loop f' (rest.drop ck.2)).map (ck.1 :: ·)
            = (from_utf8Loop rest.length (rest.drop ck.2)).map (ck.1 :: ·)
          have hlen : (rest.drop ck.2).length ≤ rest.length := by
            rw [List.length_drop]; omega
          have hle' : rest.length ≤ f' := by
            simp only [List.length_cons] at hle; omega
          rw [ih f' (by omega) _ (by omega),
            ih rest.length (by omega) _ hlen]

theorem from_utf8_nil : from_utf8 [] = some [] := rfl

theorem from_utf8_cons (b : Nat) (rest : List Nat) :
    from_utf8 (b :: rest) =
      (match utf8DecodeOne b rest with
       | some ck => (from_utf8 (rest.drop ck.2)).map (ck.1 :: ·)
       | none => none) := by
  show from_utf8Loop (b :: rest).length (b :: rest) = _
  rw [List.length_cons]
  unfold from_utf8Loop
  cases hdec : utf8DecodeOne b rest with
  | none => rfl
  | some ck =>
    show (from_utf8Loop rest.length (rest.drop ck.2)).map (ck.1 :: ·)
      = (from_utf8 (rest.drop ck.2)).map (ck.1 :: ·)
    rw [from_utf8Loop_fuel rest.length (rest.drop ck.2)
      (by rw [List.length_drop]; omega)]
    rfl

theorem from_utf16Loop_fuel : ∀ (fuel : Nat) (us : List Nat),
    us.length ≤ fuel → from_utf16Loop fuel us = from_utf16Loop us.length us := by
  intro fuel
  induction fuel using Nat.strong_induction_on with
  | _ f ih =>
    intro us hle
    cases us with
    | nil => cases f <;> rfl
    | cons u rest =>
      cases f with
      | zero => simp at hle
      | succ f' =>
        rw [List.length_cons]
        unfold from_utf16Loop
        cases hdec : utf16DecodeOne u rest with
        | none => rfl
        | some ck =>
          show (from_utf16Loop f' (rest.drop ck.2)).map (ck.1 :: ·)
            = (from_utf16Loop rest.length (rest.drop ck.2)).map (ck.1 :: ·)
          have hlen : (rest.drop ck.2).length ≤ rest.length := by
            rw [List.length_drop]; omega
          have hle' : rest.length ≤ f' := by
            simp only [List.length_cons] at hle; omega
          rw [ih f' (by omega) _ (by omega),
            ih rest.length (by omega) _ hlen]

theorem from_utf16_nil : from_utf16 [] = some [] := rfl

theorem from_utf16_cons (u : Nat) (rest : List Nat) :
    from_utf16 (u :: rest) =
      (match utf16DecodeOne u rest with
       | some ck => (from_utf16 (rest.drop ck.2)).map (ck.1 :: ·)
       | none => none) := by
  show from_utf16Loop (u :: rest).length (u :: rest) = _
  rw [List.length_cons]
  unfold from_utf16Loop
  cases hdec : utf16DecodeOne u rest with
  | none => rfl
  | some ck =>
    show (from_utf16Loop rest.length (rest.drop ck.2)).map (ck.1 :: ·)
      = (from_utf16 (rest.drop ck.2)).map (ck.1 :: ·)
    rw [from_utf16Loop_fuel rest.length (rest.drop ck.2)
      (by rw [List.length_drop]; omega)]
    rfl

theorem utf8DecodeOne_enc {c : Nat} (hc : IsScalar c) :
    ∃ b tail, Utf8.encodeChar c = b :: tail ∧
      ∀ t : List Nat, utf8DecodeOne b (tail ++ t) = some (c, tail.length) := by
  obtain ⟨hlt, hsur⟩ := hc
  unfold Utf8.encodeChar
  by_cases h1 : c < 0x80
  · refine ⟨c, [], by simp [h1], fun t => ?_⟩
    unfold utf8DecodeOne
    rw [if_pos h1]
    rfl
  · by_cases h2 : c < 0x800
    · refine ⟨0xC0 + c / 0x40, [0x80 + c % 0x40], by simp [h1, h2], fun t => ?_⟩
      unfold utf8DecodeOne
      rw [if_neg (by omega), if_neg (by omega), if_pos (by omega)]
      simp only [List.cons_append, List.nil_append]
      simp only [if_pos (show 0x80 ≤ 0x80 + c % 0x40 ∧ 0x80 + c % 0x40 < 0xC0
        by constructor <;> omega)]
      rw [if_pos (by omega)]
      have : (0xC0 + c / 0x40 - 0xC0) * 0x40 + (0x80 + c % 0x40 - 0x80) = c := by
        omega
      rw [this]
      rfl
    · by_cases h3 : c < 0x10000
      · refine ⟨0xE0 + c / 0x1000,
          [0x80 + c / 0x40 % 0x40, 0x80 + c % 0x40],
          by simp [h1, h2, h3], fun t => ?_⟩
        unfold utf8DecodeOne
        rw [if_neg (by omega), if_neg (by omega), if_neg (by omega),
          if_pos (by omega)]
        simp only [List.cons_append, List.nil_append]
        simp only [if_pos (show (0x80 ≤ 0x80 + c / 0x40 % 0x40 ∧
            0x80 + c / 0x40 % 0x40 < 0xC0) ∧
            0x80 ≤ 0x80 + c % 0x40 ∧ 0x80 + c % 0x40 < 0xC0
          by refine ⟨⟨?_, ?_⟩, ?_, ?_⟩ <;> omega)]
        have hval : (0xE0 + c / 0x1000 - 0xE0) * 0x1000 +
            (0x80 + c / 0x40 % 0x40 - 0x80) * 0x40 +
            (0x80 + c % 0x40 - 0x80) = c := by
          omega
        rw [hval, if_pos (by constructor <;> omega)]
        rfl
      · refine ⟨0xF0 + c / 0x40000,
          [0x80 + c / 0x1000 % 0x40, 0x80 + c / 0x40 % 0x40, 0x80 + c % 0x40],
          by simp [h1, h2, h3], fun t => ?_⟩
        unfold utf8DecodeOne
        rw [if_neg (by omega), if_neg (by omega), if_neg (by omega),
          if_neg (by omega), if_pos (by omega)]
        simp only [List.cons_append, List.nil_append]
        simp only [if_pos (show (0x80 ≤ 0x80 + c / 0x1000 % 0x40 ∧
            0x80 + c / 0x1000 % 0x40 < 0xC0) ∧
            (0x80 ≤ 0x80 + c / 0x40 % 0x40 ∧ 0x80 + c / 0x40 % 0x40 < 0xC0) ∧
            0x80 ≤ 0x80 + c % 0x40 ∧ 0x80 + c % 0x40 < 0xC0
          by refine ⟨⟨?_, ?_⟩, ⟨?_, ?_⟩, ?_, ?_⟩ <;> omega)]
        have hval : (0xF0 + c / 0x40000 - 0xF0) * 0x40000 +
            (0x80 + c / 0x1000 % 0x40 - 0x80) * 0x1000 +
            (0x80 + c / 0x40 % 0x40 - 0x80) * 0x40 +
            (0x80 + c % 0x40 - 0x80) = c := by
          omega
        rw [hval, if_pos (by constructor <;> omega)]
        rfl

theorem utf8_char_rt {c : Nat} (hc : IsScalar c) (t : List Nat) :
    from_utf8 (Utf8.encodeChar c ++ t) = (from_utf8 t).map (c :: ·) := by
  obtain ⟨b, tail, heq, hdec⟩ := utf8DecodeOne_enc hc
  rw [heq, List.cons_append, from_utf8_cons, hdec t]
  simp only [List.drop_left]

theorem utf8_rt {s : List Nat} (hs : ∀ c ∈ s, IsScalar c) :
    from_utf8 (Utf8.encode s) = some s := by
  induction s with
  | nil => exact from_utf8_nil
  | cons c cs ih =>
    show from_utf8 (Utf8.encodeChar c ++ Utf8.encode cs) = _
    rw [utf8_char_rt (hs c (by simp)) (Utf8.encode cs),
      ih (fun x hx => hs x (by simp [hx]))]
    rfl

theorem utf16DecodeOne_enc {c : Nat} (hc : IsScalar c) :
    ∃ u tail, Utf16.encodeChar c = u :: tail ∧
      ∀ t : List Nat, utf16DecodeOne u (tail ++ t) = some (c, tail.length) := by
  obtain ⟨hlt, hsur⟩ := hc
  unfold Utf16.encodeChar
  by_cases h1 : c < 0x10000
  · refine ⟨c, [], by simp [h1], fun t => ?_⟩
    unfold utf16DecodeOne
    rw [if_pos (by omega)]
    rfl
  · refine ⟨0xD800 + (c - 0x10000) / 0x400, [0xDC00 + (c - 0x10000) % 0x400],
      by simp [h1], fun t => ?_⟩
    unfold utf16DecodeOne
    rw [if_neg (by push_neg; constructor <;> omega), if_pos (by omega)]
    simp only [List.cons_append, List.nil_append]
    simp only [if_pos (show 0xDC00 ≤ 0xDC00 + (c - 0x10000) % 0x400 ∧
        0xDC00 + (c - 0x10000) % 0x400 < 0xE000 by constructor <;> omega)]
    have hval : 0x10000 + (0xD800 + (c - 0x10000) / 0x400 - 0xD800) * 0x400 +
        (0xDC00 + (c - 0x10000) % 0x400 - 0xDC00) = c := by
      omega
    rw [hval]
    rfl

theorem utf16_char_rt {c : Nat} (hc : IsScalar c) (t : List Nat) :
    from_utf16 (Utf16.encodeChar c ++ t) = (from_utf16 t).map (c :: ·) := by
  obtain ⟨u, tail, heq, hdec⟩ := utf16DecodeOne_enc hc
  rw [heq, List.cons_append, from_utf16_cons, hdec t]
  simp only [List.drop_left]

theorem utf16_rt {s : List Nat} (hs : ∀ c ∈ s, IsScalar c) :
    from_utf16 (Utf16.encode s) = some s := by
  induction s with
  | nil => exact from_utf16_nil
  | cons c cs ih =>
    show from_utf16 (Utf16.encodeChar c ++ Utf16.encode cs) = _
    rw [utf16_char_rt (hs c (by simp)) (Utf16.encode cs),
      ih (fun x hx => hs x (by simp [hx]))]
    rfl

theorem utf16_encodeChar_lt {c : Nat} (hc : IsScalar c) :
    ∀ u ∈ Utf16.encodeChar c, u < 65536 := by
  obtain ⟨hlt, hsur⟩ := hc
  intro u hu
  unfold Utf16.encodeChar at hu
  by_cases h1 : c < 0x10000
  · rw [if_pos h1] at hu
    simp at hu
    omega
  · rw [if_neg h1] at hu
    simp at hu
    rcases hu with h | h <;> omega

theorem utf16_encode_lt {s : List Nat} (hs : ∀ c ∈ s, IsScalar c) :
    ∀ u ∈ Utf16.encode s, u < 65536 := by
  induction s with
  | nil => intro u hu; simp [Utf16.encode] at hu
  | cons c cs ih =>
    intro u hu
    have : u ∈ Utf16.encodeChar c ++ Utf16.encode cs := hu
    rw [List.mem_append] at this
    rcases this with h | h
    · exact utf16_encodeChar_lt (hs c (by simp)) u h
    · exact ih (fun x hx => hs x (by simp [hx])) u h

/-! ### Entry-level and pool-level round-trip lemmas -/

theorem encodeUtf8Entry_length (s : RString) :
    (encodeUtf8Entry s).length = (Utf8.encode s).length + 3 := by
  simp [encodeUtf8Entry]

theorem encodeUtf16Entry_length (s : RString) :
    (encodeUtf16Entry s).length = 2 * (Utf16.encode s).length + 4 := by
  simp only [encodeUtf16Entry, List.length_append, u16le_length,
    flatten_u16le_length, List.length_cons, List.length_nil]
  omega

theorem parse_utf8_entry {d : List Nat} {pos : Nat} {s : RString} {t : List Nat}
    (h : d.drop pos = encodeUtf8Entry s ++ t)
    (hs : ∀ c ∈ s, IsScalar c) (hl : (Utf8.encode s).length < 128) :
    parse_utf8_string d pos = .ok (s, pos + (encodeUtf8Entry s).length) := by
  have h' : d.drop pos = 0 :: (Utf8.encode s).length ::
      (Utf8.encode s ++ 0 :: t) := by
    simpa [encodeUtf8Entry, List.append_assoc] using h
  rw [parse_utf8_drop h' rfl hl, utf8_rt hs, encodeUtf8Entry_length]
  have harith : pos + (Utf8.encode s).length + 3
      = pos + ((Utf8.encode s).length + 3) := by omega
  rw [harith]

theorem parse_utf16_entry {d : List Nat} {pos : Nat} {s : RString} {t : List Nat}
    (h : d.drop pos = encodeUtf16Entry s ++ t)
    (hs : ∀ c ∈ s, IsScalar c) (hl : (Utf16.encode s).length < 32768) :
    parse_utf16_string d pos = .ok (s, pos + (encodeUtf16Entry s).length) := by
  have h' : d.drop pos = u16le (Utf16.encode s).length ++
      (((Utf16.encode s).map u16le).flatten ++ (0 :: 0 :: t)) := by
    have : u16le 0 = [0, 0] := rfl
    simpa [encodeUtf16Entry, List.append_assoc] using h
  rw [parse_utf16_drop h' rfl hl (utf16_encode_lt hs), utf16_rt hs,
    encodeUtf16Entry_length]
  have harith : pos + 2 * (Utf16.encode s).length + 4
      = pos + (2 * (Utf16.encode s).length + 4) := by omega
  rw [harith]

theorem entriesJoin_cons (utf8 : Bool) (s : RString) (rest : List RString) :
    entriesJoin utf8 (s :: rest) = entryOf utf8 s ++ entriesJoin utf8 rest := by
  simp [entriesJoin]

theorem parse_entry {d : List Nat} {pos : Nat} {utf8 : Bool} {s : RString}
    {t : List Nat}
    (h : d.drop pos = entryOf utf8 s ++ t) (hf : FitsShort utf8 s) :
    (if utf8 then parse_utf8_string d pos else parse_utf16_string d pos)
      = .ok (s, pos + (entryOf utf8 s).length) := by
  obtain ⟨hs, hl⟩ := hf
  cases utf8 with
  | true =>
    simp only [if_true, Bool.true_eq_false, reduceIte] at hl ⊢
    exact parse_utf8_entry (by simpa [entryOf] using h) hs hl
  | false =>
    simp only [if_false, Bool.false_eq_true, reduceIte] at hl ⊢
    exact parse_utf16_entry (by simpa [entryOf] using h) hs hl

theorem readStrings_encoded {d : List Nat} {utf8 : Bool} (sds : Nat) :
    ∀ (strs : List RString) (acc : Nat) (t : List Nat),
    d.drop (sds + acc) = entriesJoin utf8 strs ++ t →
    (∀ s ∈ strs, FitsShort utf8 s) →
    readStrings d utf8 sds (offsetsOf utf8 acc strs) sds = .ok (strs, sds) := by
  intro strs
  induction strs with
  | nil => intro acc t h hf; simp [offsetsOf, readStrings]
  | cons s rest ih =>
    intro acc t h hf
    rw [entriesJoin_cons, List.append_assoc] at h
    show readStrings d utf8 sds (acc :: offsetsOf utf8 (acc + (entryOf utf8 s).length) rest) sds = _
    unfold readStrings
    rw [parse_entry h (hf s (by simp))]
    simp only [okBind]
    have hnext : d.drop (sds + (acc + (entryOf utf8 s).length))
        = entriesJoin utf8 rest ++ t := by
      have := drop_append_elim h
      have harr : sds + acc + (entryOf utf8 s).length
          = sds + (acc + (entryOf utf8 s).length) := by omega
      rw [harr] at this
      exact this
    rw [ih (acc + (entryOf utf8 s).length) t hnext
      (fun x hx => hf x (by simp [hx]))]
    simp only [okBind]

theorem offsetsOf_le {utf8 : Bool} :
    ∀ {strs : List RString} {acc o : Nat}, o ∈ offsetsOf utf8 acc strs →
    acc ≤ o ∧ o ≤ acc + (entriesJoin utf8 strs).length := by
  intro strs
  induction strs with
  | nil => intro acc o h; simp [offsetsOf] at h
  | cons s rest ih =>
    intro acc o h
    rw [show offsetsOf utf8 acc (s :: rest)
      = acc :: offsetsOf utf8 (acc + (entryOf utf8 s).length) rest from rfl] at h
    rw [List.mem_cons] at h
    rw [entriesJoin_cons]
    rcases h with rfl | h
    · simp
    · have := ih h
      simp only [List.length_append]
      omega

theorem offsetsOf_length {utf8 : Bool} :
    ∀ (strs : List RString) (acc : Nat),
    (offsetsOf utf8 acc strs).length = strs.length := by
  intro strs
  induction strs with
  | nil => intro acc; simp [offsetsOf]
  | cons s rest ih =>
    intro acc
    show (acc :: offsetsOf utf8 (acc + (entryOf utf8 s).length) rest).length = _
    simp [ih]

theorem u32checkedSub_ok {a b : Nat} (h : b ≤ a) :
    u32checkedSub a b = .ok (a - b) := by
  unfold u32checkedSub
  rw [if_neg (by omega)]

/-- Evaluation of `StringPool.read_from_file` from its pieces: if the header
parse, offset-table parse and string-loop parse each succeed, the decoder
returns the assembled pool and lands `chunk_header.size − STRINGPOOL_HEADER_SIZE`
bytes past the offset-table start. -/
theorem read_from_file_eval {d : List Nat} {p0 : Nat} {ch : ChunkHeader}
    {hdr : StringPoolHeader}
    (hh : StringPoolHeader.read_from_file d p0 ch = .ok (hdr, p0 + 20))
    (hstyle : hdr.style_count = 0)
    {offsets : List Nat} {pOff : Nat}
    (hoff : readOffsets d hdr.string_count (p0 + 20) = .ok (offsets, pOff))
    (hss : STRINGPOOL_HEADER_SIZE ≤ hdr.string_start)
    {strs : List RString} {pStr : Nat}
    (hstr : readStrings d (hdr.flags &&& (1 <<< 8) != 0)
      (p0 + 20 + (hdr.string_start - STRINGPOOL_HEADER_SIZE)) offsets
      (p0 + 20 + (hdr.string_start - STRINGPOOL_HEADER_SIZE)) = .ok (strs, pStr))
    (hsz : STRINGPOOL_HEADER_SIZE ≤ hdr.chunk_header.size) :
    StringPool.read_from_file d p0 ch =
      .ok (⟨hdr, strs⟩,
        p0 + 20 + (hdr.chunk_header.size - STRINGPOOL_HEADER_SIZE)) := by
  unfold StringPool.read_from_file
  rw [hh]
  simp only [okBind]
  rw [if_neg (by rw [hstyle]; simp)]
  rw [hoff]
  simp only [okBind]
  rw [u32checkedSub_ok hss]
  simp only [okBind]
  rw [hstr]
  simp only [okBind]
  rw [u32checkedSub_ok hsz]
  simp only [okBind]

theorem readOffsets_ok_len {d : List Nat} {n pos p' : Nat} {os : List Nat}
    (h : readOffsets d n pos = .ok (os, p')) :
    os.length = n ∧ p' = pos + 4 * n := by
  rcases readOffsets_ok_elim h with ⟨h1, h2, _⟩ | hz
  · exact ⟨h1, h2⟩
  · subst hz
    have : [] = os ∧ pos = p' := by simpa [readOffsets] using h
    obtain ⟨h1, h2⟩ := this
    simp [← h1, ← h2]

theorem readStrings_ok_len {d : List Nat} {u : Bool} {sds : Nat} :
    ∀ {offsets : List Nat} {pos p' : Nat} {ss : List RString},
    readStrings d u sds offsets pos = .ok (ss, p') →
    ss.length = offsets.length := by
  intro offsets
  induction offsets with
  | nil =>
    intro pos p' ss h
    have : [] = ss ∧ pos = p' := by simpa [readStrings] using h
    simp [← this.1]
  | cons off rest ih =>
    intro pos p' ss h
    unfold readStrings at h
    cases hp : (if u then parse_utf8_string d (pos + off)
        else parse_utf16_string d (pos + off)) with
    | error e => rw [hp, errorBind] at h; exact absurd h (by simp)
    | ok sr =>
      rw [hp] at h
      simp only [okBind] at h
      cases hr : readStrings d u sds rest sds with
      | error e => rw [hr, errorBind] at h; exact absurd h (by simp)
      | ok ssp =>
        rw [hr] at h
        simp only [okBind] at h
        have hinj : sr.1 :: ssp.1 = ss ∧ ssp.2 = p' := by simpa using h
        have := ih hr
        rw [← hinj.1]
        simp [this]

/-- Success inversion for `StringPool.read_from_file`: a successful decode
fixes each phase of the algorithm and the final stream position. -/
theorem read_from_file_ok_elim {d : List Nat} {p0 : Nat} {ch : ChunkHeader}
    {pool : StringPool} {posF : Nat}
    (h : StringPool.read_from_file d p0 ch = .ok (pool, posF)) :
    StringPoolHeader.read_from_file d p0 ch = .ok (pool.header, p0 + 20) ∧
    pool.header.chunk_header = ch ∧
    pool.header.style_count = 0 ∧
    STRINGPOOL_HEADER_SIZE ≤ pool.header.string_start ∧
    STRINGPOOL_HEADER_SIZE ≤ pool.header.chunk_header.size ∧
    posF = p0 + 20 + (pool.header.chunk_header.size - STRINGPOOL_HEADER_SIZE) ∧
    ∃ offsets pOff pStr,
      readOffsets d pool.header.string_count (p0 + 20) = .ok (offsets, pOff) ∧
      offsets.length = pool.header.string_count ∧
      readStrings d (pool.header.flags &&& (1 <<< 8) != 0)
        (p0 + 20 + (pool.header.string_start - STRINGPOOL_HEADER_SIZE)) offsets
        (p0 + 20 + (pool.header.string_start - STRINGPOOL_HEADER_SIZE))
        = .ok (pool.strings, pStr) ∧
      pool.strings.length = offsets.length := by
  unfold StringPool.read_from_file at h
  cases hh : StringPoolHeader.read_from_file d p0 ch with
  | error e => rw [hh, errorBind] at h; exact absurd h (by simp)
  | ok hp =>
  obtain ⟨hdr, pH⟩ := hp
  obtain ⟨hpH, hchc, _⟩ := header_ok_elim hh
  subst hpH
  rw [hh] at h
  simp only [okBind] at h
  by_cases hstyle : hdr.style_count ≠ 0
  · rw [if_pos hstyle] at h; exact absurd h (by simp)
  rw [if_neg hstyle] at h
  push_neg at hstyle
  cases hoff : readOffsets d hdr.string_count (p0 + 20) with
  | error e => rw [hoff, errorBind] at h; exact absurd h (by simp)
  | ok osp =>
  obtain ⟨offsets, pOff⟩ := osp
  rw [hoff] at h
  simp only [okBind] at h
  by_cases hss : hdr.string_start < STRINGPOOL_HEADER_SIZE
  · rw [show u32checkedSub hdr.string_start STRINGPOOL_HEADER_SIZE
        = .error .fatal from by unfold u32checkedSub; rw [if_pos hss],
      errorBind] at h
    exact absurd h (by simp)
  push_neg at hss
  rw [u32checkedSub_ok hss] at h
  simp only [okBind] at h
  cases hstr : readStrings d (hdr.flags &&& (1 <<< 8) != 0)
      (p0 + 20 + (hdr.string_start - STRINGPOOL_HEADER_SIZE)) offsets
      (p0 + 20 + (hdr.string_start - STRINGPOOL_HEADER_SIZE)) with
  | error e => rw [hstr, errorBind] at h; exact absurd h (by simp)
  | ok ssp =>
  obtain ⟨strs, pStr⟩ := ssp
  rw [hstr] at h
  simp only [okBind] at h
  by_cases hsz : hdr.chunk_header.size < STRINGPOOL_HEADER_SIZE
  · rw [show u32checkedSub hdr.chunk_header.size STRINGPOOL_HEADER_SIZE
        = .error .fatal from by unfold u32checkedSub; rw [if_pos hsz],
      errorBind] at h
    exact absurd h (by simp)
  push_neg at hsz
  rw [u32checkedSub_ok hsz] at h
  simp only [okBind] at h
  have hinj : (⟨hdr, strs⟩ : StringPool) = pool ∧
      p0 + 20 + (hdr.chunk_header.size - STRINGPOOL_HEADER_SIZE) = posF := by
    simpa using h
  obtain ⟨hpool, hpos⟩ := hinj
  subst hpool
  dsimp only
  refine ⟨rfl, hchc, hstyle, hss, hsz, hpos.symm,
    offsets, pOff, pStr, hoff, (readOffsets_ok_len hoff).1, hstr,
    readStrings_ok_len hstr⟩

/-- Decoding an encoded pool whose `string_start` is expressed relative to
the start of the generic chunk header (i.e. using the code's
`STRINGPOOL_HEADER_SIZE` = 28 bytes) succeeds and reproduces the strings. -/
theorem encodePool_decode (utf8 : Bool) (strs : List RString)
    (hf : ∀ s ∈ strs, FitsShort utf8 s)
    (hsize : poolChunkSize utf8 strs < 4294967296) :
    StringPool.read_from_file (encodePool STRINGPOOL_HEADER_SIZE utf8 strs) 0
      ⟨0, 28, poolChunkSize utf8 strs⟩ =
      .ok (⟨⟨⟨0, 28, poolChunkSize utf8 strs⟩, strs.length, 0,
        (if utf8 then 256 else 0), STRINGPOOL_HEADER_SIZE + 4 * strs.length, 0⟩,
        strs⟩, 20 + 4 * strs.length + (entriesJoin utf8 strs).length) := by
  have hbit : ((if utf8 then (256 : Nat) else 0) &&& (1 <<< 8) != 0) = utf8 := by
    cases utf8 <;> rfl
  have hn : strs.length < 4294967296 := by
    unfold poolChunkSize at hsize; omega
  have hss32 : STRINGPOOL_HEADER_SIZE + 4 * strs.length < 4294967296 := by
    unfold STRINGPOOL_HEADER_SIZE CHUNK_HEADER_BYTES
    unfold poolChunkSize at hsize
    omega
  have hdrop0 : (encodePool STRINGPOOL_HEADER_SIZE utf8 strs).drop 0
      = u32le strs.length ++ (u32le 0 ++ (u32le (if utf8 then 256 else 0) ++
        (u32le (STRINGPOOL_HEADER_SIZE + 4 * strs.length) ++ (u32le 0 ++
        (((offsetsOf utf8 0 strs).map u32le).flatten ++
          entriesJoin utf8 strs))))) := by
    rw [List.drop_zero]
    rfl
  have hh := header_read_drop ⟨0, 28, poolChunkSize utf8 strs⟩ hdrop0 hn
    (by norm_num) (by cases utf8 <;> norm_num) hss32 (by norm_num)
  have hdrop20 : (encodePool STRINGPOOL_HEADER_SIZE utf8 strs).drop 20
      = ((offsetsOf utf8 0 strs).map u32le).flatten ++ entriesJoin utf8 strs := rfl
  have hoff0 := readOffsets_drop hdrop20 (by
    intro o ho
    have := offsetsOf_le ho
    unfold poolChunkSize at hsize
    omega)
  rw [offsetsOf_length] at hoff0
  have hdropdata : (encodePool STRINGPOOL_HEADER_SIZE utf8 strs).drop
      (20 + 4 * strs.length) = entriesJoin utf8 strs ++ [] := by
    have h1 := drop_append_elim hdrop20
    rw [flatten_u32le_length, offsetsOf_length] at h1
    rw [List.append_nil]
    exact h1
  have hstr0 := readStrings_encoded (20 + 4 * strs.length) strs 0 [] hdropdata hf
  have hx : 20 + 4 * strs.length = 0 + 20 +
      ((STRINGPOOL_HEADER_SIZE + 4 * strs.length) - STRINGPOOL_HEADER_SIZE) := by
    omega
  rw [hx] at hstr0
  have hstr1 : readStrings (encodePool STRINGPOOL_HEADER_SIZE utf8 strs)
      ((if utf8 then (256 : Nat) else 0) &&& (1 <<< 8) != 0)
      (0 + 20 + ((STRINGPOOL_HEADER_SIZE + 4 * strs.length) - STRINGPOOL_HEADER_SIZE))
      (offsetsOf utf8 0 strs)
      (0 + 20 + ((STRINGPOOL_HEADER_SIZE + 4 * strs.length) - STRINGPOOL_HEADER_SIZE))
      = .ok (strs,
        0 + 20 + ((STRINGPOOL_HEADER_SIZE + 4 * strs.length) - STRINGPOOL_HEADER_SIZE)) := by
    rw [hbit]
    exact hstr0
  have hres := read_from_file_eval hh rfl hoff0 (Nat.le_add_right _ _) hstr1
    (by
      show STRINGPOOL_HEADER_SIZE ≤ poolChunkSize utf8 strs
      unfold STRINGPOOL_HEADER_SIZE CHUNK_HEADER_BYTES poolChunkSize
      omega)
  rw [hres]
  have hfin : 0 + 20 + (poolChunkSize utf8 strs - STRINGPOOL_HEADER_SIZE)
      = 20 + 4 * strs.length + (entriesJoin utf8 strs).length := by
    unfold poolChunkSize STRINGPOOL_HEADER_SIZE CHUNK_HEADER_BYTES
    omega
  rw [show ((⟨⟨0, 28, poolChunkSize utf8 strs⟩, strs.length, 0,
      (if utf8 then 256 else 0), STRINGPOOL_HEADER_SIZE + 4 * strs.length, 0⟩ :
      StringPoolHeader).chunk_header.size) = poolChunkSize utf8 strs from rfl]
  rw [hfin]

/-! ### Agreement lemmas: behaviour depends only on the bytes actually read -/

theorem getElem?_congr_drop {d1 d2 : List Nat} {n pos : Nat}
    (hd : d1.drop n = d2.drop n) (hp : n ≤ pos) : d1[pos]? = d2[pos]? := by
  have h1 := List.getElem?_drop d1 n (pos - n)
  have h2 := List.getElem?_drop d2 n (pos - n)
  rw [hd] at h1
  have h3 := h1.symm.trans h2
  have : n + (pos - n) = pos := by omega
  rw [this] at h3
  exact h3

theorem read_u8_congr {d1 d2 : List Nat} {n pos : Nat}
    (hd : d1.drop n = d2.drop n) (hp : n ≤ pos) :
    read_u8 d1 pos = read_u8 d2 pos := by
  unfold read_u8
  rw [getElem?_congr_drop hd hp]

theorem read_u16_congr {d1 d2 : List Nat} {n pos : Nat}
    (hd : d1.drop n = d2.drop n) (hp : n ≤ pos) :
    read_u16 d1 pos = read_u16 d2 pos := by
  unfold read_u16
  rw [read_u8_congr hd hp]
  cases h0 : read_u8 d2 pos with
  | error e => rfl
  | ok r0 =>
    obtain ⟨b, p'⟩ := r0
    simp only [okBind]
    obtain ⟨hp', _⟩ := read_u8_ok_elim h0
    rw [read_u8_congr hd (by omega)]

theorem read_u32_congr {d1 d2 : List Nat} {n pos : Nat}
    (hd : d1.drop n = d2.drop n) (hp : n ≤ pos) :
    read_u32 d1 pos = read_u32 d2 pos := by
  unfold read_u32
  rw [read_u16_congr hd hp]
  cases h0 : read_u16 d2 pos with
  | error e => rfl
  | ok r0 =>
    obtain ⟨v, p'⟩ := r0
    simp only [okBind]
    obtain ⟨hp', _⟩ := read_u16_ok_elim h0
    rw [read_u16_congr hd (by omega)]

theorem readOffsets_congr {d1 d2 : List Nat} {n : Nat}
    (hd : d1.drop n = d2.drop n) :
    ∀ {cnt pos : Nat}, n ≤ pos →
    readOffsets d1 cnt pos = readOffsets d2 cnt pos := by
  intro cnt
  induction cnt with
  | zero => intro pos hp; rfl
  | succ m ih =>
    intro pos hp
    unfold readOffsets
    rw [read_u32_congr hd hp]
    cases h0 : read_u32 d2 pos with
    | error e => rfl
    | ok r0 =>
      obtain ⟨v, p'⟩ := r0
      simp only [okBind]
      obtain ⟨hp', _⟩ := read_u32_ok_elim h0
      rw [ih (by omega)]

theorem readBytes8_congr {d1 d2 : List Nat} {n : Nat}
    (hd : d1.drop n = d2.drop n) :
    ∀ {cnt pos : Nat}, n ≤ pos →
    readBytes8 d1 cnt pos = readBytes8 d2 cnt pos := by
  intro cnt
  induction cnt with
  | zero => intro pos hp; rfl
  | succ m ih =>
    intro pos hp
    unfold readBytes8
    rw [read_u8_congr hd hp]
    cases h0 : read_u8 d2 pos with
    | error e => rfl
    | ok r0 =>
      obtain ⟨b, p'⟩ := r0
      simp only [okBind]
      obtain ⟨hp', _⟩ := read_u8_ok_elim h0
      rw [ih (by omega)]

theorem readUnits16_congr {d1 d2 : List Nat} {n : Nat}
    (hd : d1.drop n = d2.drop n) :
    ∀ {cnt pos : Nat}, n ≤ pos →
    readUnits16 d1 cnt pos = readUnits16 d2 cnt pos := by
  intro cnt
  induction cnt with
  | zero => intro pos hp; rfl
  | succ m ih =>
    intro pos hp
    unfold readUnits16
    rw [read_u16_congr hd hp]
    cases h0 : read_u16 d2 pos with
    | error e => rfl
    | ok r0 =>
      obtain ⟨u, p'⟩ := r0
      simp only [okBind]
      obtain ⟨hp', _⟩ := read_u16_ok_elim h0
      rw [ih (by omega)]

theorem readBytes8_ok_pos {d : List Nat} :
    ∀ {cnt pos p' : Nat} {bs : List Nat},
    readBytes8 d cnt pos = .ok (bs, p') → p' = pos + cnt := by
  intro cnt
  induction cnt with
  | zero =>
    intro pos p' bs h
    have : [] = bs ∧ pos = p' := by simpa [readBytes8] using h
    omega
  | succ m ih =>
    intro pos p' bs h
    unfold readBytes8 at h
    cases h0 : read_u8 d pos with
    | error e => rw [h0, errorBind] at h; exact absurd h (by simp)
    | ok r0 =>
      obtain ⟨b, p0⟩ := r0
      obtain ⟨hp0, _⟩ := read_u8_ok_elim h0
      rw [h0] at h
      simp only [okBind] at h
      cases h1 : readBytes8 d m p0 with
      | error e => rw [h1, errorBind] at h; exact absurd h (by simp)
      | ok r1 =>
        obtain ⟨bs1, p1⟩ := r1
        rw [h1] at h
        simp only [okBind] at h
        have := ih h1
        have hinj : b :: bs1 = bs ∧ p1 = p' := by simpa using h
        omega

theorem readUnits16_ok_pos {d : List Nat} :
    ∀ {cnt pos p' : Nat} {us : List Nat},
    readUnits16 d cnt pos = .ok (us, p') → p' = pos + 2 * cnt := by
  intro cnt
  induction cnt with
  | zero =>
    intro pos p' us h
    have : [] = us ∧ pos = p' := by simpa [readUnits16] using h
    omega
  | succ m ih =>
    intro pos p' us h
    unfold readUnits16 at h
    cases h0 : read_u16 d pos with
    | error e => rw [h0, errorBind] at h; exact absurd h (by simp)
    | ok r0 =>
      obtain ⟨u, p0⟩ := r0
      obtain ⟨hp0, _⟩ := read_u16_ok_elim h0
      rw [h0] at h
      simp only [okBind] at h
      cases h1 : readUnits16 d m p0 with
      | error e => rw [h1, errorBind] at h; exact absurd h (by simp)
      | ok r1 =>
        obtain ⟨us1, p1⟩ := r1
        rw [h1] at h
        simp only [okBind] at h
        have := ih h1
        have hinj : u :: us1 = us ∧ p1 = p' := by simpa using h
        omega

theorem parse_utf8_congr {d1 d2 : List Nat} {n pos : Nat}
    (hd : d1.drop n = d2.drop n) (hp : n ≤ pos) :
    parse_utf8_string d1 pos = parse_utf8_string d2 pos := by
  unfold parse_utf8_string
  rw [read_u8_congr hd hp]
  cases h0 : read_u8 d2 pos with
  | error e => rfl
  | ok r0 =>
  obtain ⟨b0, p0⟩ := r0
  obtain ⟨hp0, _⟩ := read_u8_ok_elim h0
  simp only [okBind]
  rw [read_u8_congr hd (by omega)]
  cases h1 : read_u8 d2 p0 with
  | error e => rfl
  | ok r1 =>
  obtain ⟨len, p1⟩ := r1
  obtain ⟨hp1, _⟩ := read_u8_ok_elim h1
  simp only [okBind]
  cases hbit : is_high_bit_set_8 len with
  | true => rfl
  | false =>
  simp only [Bool.false_eq_true, if_false]
  rw [readBytes8_congr hd (by omega)]
  cases h2 : readBytes8 d2 len p1 with
  | error e => rfl
  | ok r2 =>
  obtain ⟨bs, p2⟩ := r2
  have hp2 := readBytes8_ok_pos h2
  simp only [okBind]
  rw [read_u8_congr hd (by omega)]

theorem parse_utf16_congr {d1 d2 : List Nat} {n pos : Nat}
    (hd : d1.drop n = d2.drop n) (hp : n ≤ pos) :
    parse_utf16_string d1 pos = parse_utf16_string d2 pos := by
  unfold parse_utf16_string
  rw [read_u16_congr hd hp]
  cases h0 : read_u16 d2 pos with
  | error e => rfl
  | ok r0 =>
  obtain ⟨len, p0⟩ := r0
  obtain ⟨hp0, _⟩ := read_u16_ok_elim h0
  simp only [okBind]
  cases hbit : is_high_bit_set_16 len with
  | true => rfl
  | false =>
  simp only [Bool.false_eq_true, if_false]
  rw [readUnits16_congr hd (by omega)]
  cases h2 : readUnits16 d2 len p0 with
  | error e => rfl
  | ok r2 =>
  obtain ⟨us, p2⟩ := r2
  have hp2 := readUnits16_ok_pos h2
  simp only [okBind]
  rw [read_u16_congr hd (by omega)]

theorem readStrings_congr {d1 d2 : List Nat} {n : Nat} {u : Bool} {sds : Nat}
    (hd : d1.drop n = d2.drop n) (hsds : n ≤ sds) :
    ∀ {offsets : List Nat} {pos : Nat}, n ≤ pos →
    readStrings d1 u sds offsets pos = readStrings d2 u sds offsets pos := by
  intro offsets
  induction offsets with
  | nil => intro pos hp; rfl
  | cons off rest ih =>
    intro pos hp
    unfold readStrings
    have hparse : (if u then parse_utf8_string d1 (pos + off)
        else parse_utf16_string d1 (pos + off))
        = (if u then parse_utf8_string d2 (pos + off)
        else parse_utf16_string d2 (pos + off)) := by
      cases u with
      | true =>
        simp only [if_true, Bool.true_eq_false, reduceIte]
        exact parse_utf8_congr hd (by omega)
      | false =>
        simp only [if_false, Bool.false_eq_true, reduceIte]
        exact parse_utf16_congr hd (by omega)
    rw [hparse]
    cases h0 : (if u then parse_utf8_string d2 (pos + off)
        else parse_utf16_string d2 (pos + off)) with
    | error e => rfl
    | ok sr =>
      simp only [okBind]
      rw [ih hsds]

theorem getElem?_congr_take {d1 d2 : List Nat} {m k : Nat}
    (ht : d1.take m = d2.take m) (hk : k < m) : d1[k]? = d2[k]? := by
  have h1 : (d1.take m)[k]? = d1[k]? := by
    rw [List.getElem?_take]
    rw [if_pos hk]
  have h2 : (d2.take m)[k]? = d2[k]? := by
    rw [List.getElem?_take]
    rw [if_pos hk]
  rw [← h1, ← h2, ht]

theorem read_u8_congr_take {d1 d2 : List Nat} {m pos : Nat}
    (ht : d1.take m = d2.take m) (hp : pos < m) :
    read_u8 d1 pos = read_u8 d2 pos := by
  unfold read_u8
  rw [getElem?_congr_take ht hp]

theorem read_u16_congr_take {d1 d2 : List Nat} {m pos : Nat}
    (ht : d1.take m = d2.take m) (hp : pos + 2 ≤ m) :
    read_u16 d1 pos = read_u16 d2 pos := by
  unfold read_u16
  rw [read_u8_congr_take ht (by omega)]
  cases h0 : read_u8 d2 pos with
  | error e => rfl
  | ok r0 =>
    obtain ⟨b, p'⟩ := r0
    simp only [okBind]
    obtain ⟨hp', _⟩ := read_u8_ok_elim h0
    rw [read_u8_congr_take ht (by omega)]

theorem read_u32_congr_take {d1 d2 : List Nat} {m pos : Nat}
    (ht : d1.take m = d2.take m) (hp : pos + 4 ≤ m) :
    read_u32 d1 pos = read_u32 d2 pos := by
  unfold read_u32
  rw [read_u16_congr_take ht (by omega)]
  cases h0 : read_u16 d2 pos with
  | error e => rfl
  | ok r0 =>
    obtain ⟨v, p'⟩ := r0
    simp only [okBind]
    obtain ⟨hp', _⟩ := read_u16_ok_elim h0
    rw [read_u16_congr_take ht (by omega)]

theorem read_u8_total (d : List Nat) (pos : Nat) (h : pos < d.length) :
    ∃ b, read_u8 d pos = .ok (b, pos + 1) := by
  refine ⟨d[pos], ?_⟩
  unfold read_u8
  rw [List.getElem?_eq_getElem h]

theorem read_u16_total (d : List Nat) (pos : Nat) (h : pos + 2 ≤ d.length) :
    ∃ v, read_u16 d pos = .ok (v, pos + 2) := by
  obtain ⟨b0, h0⟩ := read_u8_total d pos (by omega)
  obtain ⟨b1, h1⟩ := read_u8_total d (pos + 1) (by omega)
  refine ⟨b0 + 256 * b1, ?_⟩
  unfold read_u16
  rw [h0]
  simp only [okBind]
  rw [h1]
  simp only [okBind]

theorem read_u32_total (d : List Nat) (pos : Nat) (h : pos + 4 ≤ d.length) :
    ∃ v, read_u32 d pos = .ok (v, pos + 4) := by
  obtain ⟨lo, h0⟩ := read_u16_total d pos (by omega)
  obtain ⟨hi, h1⟩ := read_u16_total d (pos + 2) (by omega)
  refine ⟨lo + 65536 * hi, ?_⟩
  unfold read_u32
  rw [h0]
  simp only [okBind]
  rw [h1]
  simp only [okBind]

/-- Header agreement: on inputs of the same length that agree on the first
four header fields, both header reads either succeed at the same position
with headers equal except possibly `style_start`, or fail with the same
error. -/
theorem header_congr {d1 d2 : List Nat} {p0 : Nat} (ch : ChunkHeader)
    (hlen : d1.length = d2.length)
    (htake : d1.take (p0 + 16) = d2.take (p0 + 16)) :
    (∃ h1 h2 : StringPoolHeader,
      StringPoolHeader.read_from_file d1 p0 ch = .ok (h1, p0 + 20) ∧
      StringPoolHeader.read_from_file d2 p0 ch = .ok (h2, p0 + 20) ∧
      h1.chunk_header = h2.chunk_header ∧ h1.string_count = h2.string_count ∧
      h1.style_count = h2.style_count ∧ h1.flags = h2.flags ∧
      h1.string_start = h2.string_start) ∨
    (StringPoolHeader.read_from_file d1 p0 ch = .error .eof ∧
      StringPoolHeader.read_from_file d2 p0 ch = .error .eof) := by
  by_cases hle : p0 + 20 ≤ d1.length
  · -- all five reads succeed on both
    obtain ⟨a, ha1⟩ := read_u32_total d1 p0 (by omega)
    obtain ⟨b, hb1⟩ := read_u32_total d1 (p0 + 4) (by omega)
    obtain ⟨c, hc1⟩ := read_u32_total d1 (p0 + 8) (by omega)
    obtain ⟨e, he1⟩ := read_u32_total d1 (p0 + 12) (by omega)
    obtain ⟨f1, hf1⟩ := read_u32_total d1 (p0 + 16) (by omega)
    obtain ⟨f2, hf2⟩ := read_u32_total d2 (p0 + 16) (by omega)
    have ha2 : read_u32 d2 p0 = .ok (a, p0 + 4) := by
      rw [← read_u32_congr_take htake (by omega)]; exact ha1
    have hb2 : read_u32 d2 (p0 + 4) = .ok (b, p0 + 4 + 4) := by
      rw [← read_u32_congr_take htake (by omega)]; exact hb1
    have hc2 : read_u32 d2 (p0 + 8) = .ok (c, p0 + 8 + 4) := by
      rw [← read_u32_congr_take htake (by omega)]; exact hc1
    have he2 : read_u32 d2 (p0 + 12) = .ok (e, p0 + 12 + 4) := by
      rw [← read_u32_congr_take htake (by omega)]; exact he1
    left
    refine ⟨⟨ch, a, b, c, e, f1⟩, ⟨ch, a, b, c, e, f2⟩, ?_, ?_, rfl, rfl, rfl,
      rfl, rfl⟩
    · unfold StringPoolHeader.read_from_file
      rw [ha1]
      simp only [okBind]
      rw [show p0 + 4 + 4 = p0 + 8 from by omega] at hb1
      rw [show p0 + 4 = p0 + 4 from rfl, hb1]
      simp only [okBind]
      rw [show p0 + 8 + 4 = p0 + 12 from by omega] at hc1
      rw [hc1]
      simp only [okBind]
      rw [show p0 + 12 + 4 = p0 + 16 from by omega] at he1
      rw [he1]
      simp only [okBind]
      rw [show p0 + 16 + 4 = p0 + 20 from by omega] at hf1
      rw [hf1]
      simp only [okBind]
    · unfold StringPoolHeader.read_from_file
      rw [ha2]
      simp only [okBind]
      rw [show p0 + 4 + 4 = p0 + 8 from by omega] at hb2
      rw [hb2]
      simp only [okBind]
      rw [show p0 + 8 + 4 = p0 + 12 from by omega] at hc2
      rw [hc2]
      simp only [okBind]
      rw [show p0 + 12 + 4 = p0 + 16 from by omega] at he2
      rw [he2]
      simp only [okBind]
      rw [show p0 + 16 + 4 = p0 + 20 from by omega] at hf2
      rw [hf2]
      simp only [okBind]
  · -- too short on both: the header read fails with EOF on both inputs
    right
    constructor
    · cases hres : StringPoolHeader.read_from_file d1 p0 ch with
      | ok r =>
        obtain ⟨hdr, p'⟩ := r
        obtain ⟨_, _, hbound⟩ := header_ok_elim hres
        omega
      | error er => rw [header_err_elim hres]
    · cases hres : StringPoolHeader.read_from_file d2 p0 ch with
      | ok r =>
        obtain ⟨hdr, p'⟩ := r
        obtain ⟨_, _, hbound⟩ := header_ok_elim hres
        omega
      | error er => rw [header_err_elim hres]

theorem header_eof {d : List Nat} {pos : Nat} {ch : ChunkHeader}
    (h : d.length < pos + 20) :
    StringPoolHeader.read_from_file d pos ch = .error .eof := by
  cases hres : StringPoolHeader.read_from_file d pos ch with
  | ok r =>
    obtain ⟨hdr, p'⟩ := r
    obtain ⟨_, _, hbound⟩ := header_ok_elim hres
    omega
  | error er => rw [header_err_elim hres]

theorem parse_utf8_eof {d : List Nat} {pos : Nat} (h : d.length ≤ pos) :
    parse_utf8_string d pos = .error .eof := by
  unfold parse_utf8_string
  rw [read_u8_eof h, errorBind]

theorem parse_utf16_eof {d : List Nat} {pos : Nat} (h : d.length ≤ pos) :
    parse_utf16_string d pos = .error .eof := by
  unfold parse_utf16_string
  rw [read_u16_eof (by omega), errorBind]

/-- In a successful run of the string loop started at `sds` (as
`read_from_file` starts it), the `i`-th decoded string is exactly the string
parsed at `sds + offsets[i]`: the strings come out in offset-table order. -/
theorem readStrings_order {d : List Nat} {u : Bool} {sds : Nat} :
    ∀ {offsets : List Nat} {ss : List RString} {p' : Nat},
    readStrings d u sds offsets sds = .ok (ss, p') →
    ∀ (i off : Nat), offsets[i]? = some off →
    ∃ s q, ss[i]? = some s ∧
      (if u then parse_utf8_string d (sds + off)
       else parse_utf16_string d (sds + off)) = .ok (s, q) := by
  intro offsets
  induction offsets with
  | nil => intro ss p' h i off hget; simp at hget
  | cons off0 rest ih =>
    intro ss p' h i off hget
    unfold readStrings at h
    cases hp : (if u then parse_utf8_string d (sds + off0)
        else parse_utf16_string d (sds + off0)) with
    | error e => rw [hp, errorBind] at h; exact absurd h (by simp)
    | ok sr =>
    obtain ⟨s0, q0⟩ := sr
    rw [hp] at h
    simp only [okBind] at h
    cases hr : readStrings d u sds rest sds with
    | error e => rw [hr, errorBind] at h; exact absurd h (by simp)
    | ok ssp =>
    obtain ⟨ss1, p1⟩ := ssp
    rw [hr] at h
    simp only [okBind] at h
    have hinj : s0 :: ss1 = ss ∧ p1 = p' := by simpa using h
    obtain ⟨hss, _⟩ := hinj
    subst hss
    cases i with
    | zero =>
      have hoff : off0 = off := by simpa using hget
      subst hoff
      exact ⟨s0, q0, by simp, hp⟩
    | succ k =>
      have hget' : rest[k]? = some off := by simpa using hget
      obtain ⟨s, q, hsk, hpk⟩ := ih hr k off hget'
      exact ⟨s, q, by simpa using hsk, hpk⟩

/-- If every string before index `i` parses successfully and the parse of the
`i`-th string fails, the string loop fails with that same error. -/
theorem readStrings_err_at {d : List Nat} {u : Bool} {sds : Nat} :
    ∀ {offsets : List Nat} {i off : Nat} {e : Err},
    offsets[i]? = some off →
    (∀ j, j < i → ∀ off', offsets[j]? = some off' →
      ∃ r, (if u then parse_utf8_string d (sds + off')
        else parse_utf16_string d (sds + off')) = .ok r) →
    (if u then parse_utf8_string d (sds + off)
      else parse_utf16_string d (sds + off)) = .error e →
    readStrings d u sds offsets sds = .error e := by
  intro offsets
  induction offsets with
  | nil => intro i off e hget _ _; simp at hget
  | cons off0 rest ih =>
    intro i off e hget hprev herr
    cases i with
    | zero =>
      have hoff : off0 = off := by simpa using hget
      subst hoff
      unfold readStrings
      rw [herr, errorBind]
    | succ k =>
      obtain ⟨r, hr⟩ := hprev 0 (by omega) off0 (by simp)
      unfold readStrings
      rw [hr]
      simp only [okBind]
      have hget' : rest[k]? = some off := by simpa using hget
      have hprev' : ∀ j, j < k → ∀ off', rest[j]? = some off' →
          ∃ r, (if u then parse_utf8_string d (sds + off')
            else parse_utf16_string d (sds + off')) = .ok r := by
        intro j hj off' hoff'
        exact hprev (j + 1) (by omega) off' (by simpa using hoff')
      rw [ih hget' hprev' herr]
      rfl

/-! ### Claim theorems -/

/-- C1, counterexample: the claim states that the string-data anchor is
computed with `HEADER_SIZE` = 20 bytes (the five `u32` fields).  In the code
`HEADER_SIZE` is `size_of::<StringPoolHeader>()` = 28, so on `sampleData`
(whose `string_start` is 36) the decoder fetches the string stored at
`data_start + 8` (the byte `'a'`), not the one at the spec's anchor
`data_start + 16` (the byte `'b'`). -/
theorem c1_counterexample :
    STRINGPOOL_HEADER_SIZE ≠ SPEC_HEADER_SIZE ∧
    (StringPool.read_from_file sampleData 0 sampleCh).map (fun r => r.1.strings)
      = .ok [[0x61]] ∧
    (parse_utf8_string sampleData (spec_string_data_start 20 36)).map
      (fun r => r.1) = .ok [0x62] ∧
    ([[0x61]] : List RString) ≠ [[0x62]] :=
  ⟨by decide, rfl, rfl, by decide⟩

/-- C1 (amended): in `StringPool::read_from_file` the string-data region
start is `data_start + (string_start − STRINGPOOL_HEADER_SIZE)` where
`STRINGPOOL_HEADER_SIZE = size_of::<StringPoolHeader>()` is 28 bytes — the
embedded 8-byte generic chunk header plus the 20 bytes of the five `u32`
fields — not 20: every successful decode reads its offset table at
`data_start` and its strings anchored at `data_start + (string_start − 28)`. -/
theorem c1_amended {d : List Nat} {p0 : Nat} {ch : ChunkHeader}
    {pool : StringPool} {posF : Nat}
    (h : StringPool.read_from_file d p0 ch = .ok (pool, posF)) :
    STRINGPOOL_HEADER_SIZE = 28 ∧
    28 ≤ pool.header.string_start ∧
    ∃ offsets pOff pStr,
      readOffsets d pool.header.string_count (p0 + 20) = .ok (offsets, pOff) ∧
      readStrings d (pool.header.flags &&& (1 <<< 8) != 0)
        (p0 + 20 + (pool.header.string_start - 28)) offsets
        (p0 + 20 + (pool.header.string_start - 28)) = .ok (pool.strings, pStr) := by
  obtain ⟨_, _, _, hss, _, _, offsets, pOff, pStr, hoff, _, hstr, _⟩ :=
    read_from_file_ok_elim h
  exact ⟨rfl, hss, offsets, pOff, pStr, hoff, hstr⟩

/-- C1 witness: the amended statement at the concrete input `sampleData`. -/
theorem c1_amended_witness :
    STRINGPOOL_HEADER_SIZE = 28 ∧
    28 ≤ (36 : Nat) ∧
    ∃ offsets pOff pStr,
      readOffsets sampleData 1 20 = .ok (offsets, pOff) ∧
      readStrings sampleData (256 &&& (1 <<< 8) != 0) 28 offsets 28
        = .ok ([[0x61]], pStr) :=
  c1_amended (show StringPool.read_from_file sampleData 0 sampleCh
    = .ok (samplePool, 40) from rfl)

/-- C2: after every successful decode the final stream position is
`chunk_start + chunk_header.size`: with the 8-byte generic chunk header
preceding the entry position `p0`, the chunk starts at `p0 − 8`, and the
final position satisfies `posF + 8 = p0 + chunk_header.size`, independent of
the decoded strings. -/
theorem c2_final_position {d : List Nat} {p0 : Nat} {ch : ChunkHeader}
    {pool : StringPool} {posF : Nat}
    (h : StringPool.read_from_file d p0 ch = .ok (pool, posF)) :
    pool.header.chunk_header = ch ∧ 28 ≤ ch.size ∧ posF + 8 = p0 + ch.size := by
  obtain ⟨_, hch, _, _, hsz, hpos, _⟩ := read_from_file_ok_elim h
  have h28 : STRINGPOOL_HEADER_SIZE = 28 := rfl
  rw [hch] at hsz hpos
  rw [h28] at hsz hpos
  exact ⟨hch, hsz, by omega⟩

/-- C2 witness: the final-position statement at the concrete input
`sampleData` (entry position 0, declared chunk size 48, final position 40). -/
theorem c2_witness :
    samplePool.header.chunk_header = sampleCh ∧
    28 ≤ sampleCh.size ∧ (40 : Nat) + 8 = 0 + sampleCh.size :=
  c2_final_position (show StringPool.read_from_file sampleData 0 sampleCh
    = .ok (samplePool, 40) from rfl)

/-- C3: every successful decode returns exactly `string_count` strings, and
they are in offset-table order: there is an offset table of length
`string_count` read at `data_start`, and for every index `i`, the `i`-th
returned string is exactly the string parsed at the string-data anchor plus
`offsets[i]`. -/
theorem c3_string_count {d : List Nat} {p0 : Nat} {ch : ChunkHeader}
    {pool : StringPool} {posF : Nat}
    (h : StringPool.read_from_file d p0 ch = .ok (pool, posF)) :
    pool.strings.length = pool.header.string_count ∧
    ∃ offsets pOff,
      readOffsets d pool.header.string_count (p0 + 20) = .ok (offsets, pOff) ∧
      offsets.length = pool.header.string_count ∧
      ∀ (i off : Nat), offsets[i]? = some off →
        ∃ s q, pool.strings[i]? = some s ∧
          (if pool.header.flags &&& (1 <<< 8) != 0
           then parse_utf8_string d
             (p0 + 20 + (pool.header.string_start - STRINGPOOL_HEADER_SIZE) + off)
           else parse_utf16_string d
             (p0 + 20 + (pool.header.string_start - STRINGPOOL_HEADER_SIZE) + off))
            = .ok (s, q) := by
  obtain ⟨_, _, _, _, _, _, offsets, pOff, pStr, hoff, hoffl, hstr, hstrl⟩ :=
    read_from_file_ok_elim h
  refine ⟨by rw [hstrl, hoffl], offsets, pOff, hoff, hoffl, ?_⟩
  intro i off hget
  exact readStrings_order hstr i off hget

/-- C3 witness: count and offset-table order at the concrete input
`sampleData`. -/
theorem c3_witness :
    samplePool.strings.length = samplePool.header.string_count ∧
    ∃ offsets pOff,
      readOffsets sampleData samplePool.header.string_count (0 + 20)
        = .ok (offsets, pOff) ∧
      offsets.length = samplePool.header.string_count ∧
      ∀ (i off : Nat), offsets[i]? = some off →
        ∃ s q, samplePool.strings[i]? = some s ∧
          (if samplePool.header.flags &&& (1 <<< 8) != 0
           then parse_utf8_string sampleData
             (0 + 20 + (samplePool.header.string_start - STRINGPOOL_HEADER_SIZE) + off)
           else parse_utf16_string sampleData
             (0 + 20 + (samplePool.header.string_start - STRINGPOOL_HEADER_SIZE) + off))
            = .ok (s, q) :=
  c3_string_count (show StringPool.read_from_file sampleData 0 sampleCh
    = .ok (samplePool, 40) from rfl)

/-- C4: `get(0xFFFFFFFF)` returns `None` for every pool (the all-bits-set
sentinel suppresses the lookup), and for every in-range index `i` of a pool
satisfying the decoder's count invariant (`strings.len() == string_count`
with `string_count` a `u32` value), `get(i)` returns `Some` of the content of
`strings[i]`. -/
theorem c4_get :
    (∀ p : StringPool, p.get 0xFFFFFFFF = .ok none) ∧
    (∀ (p : StringPool) (i : Nat),
      p.strings.length = p.header.string_count →
      p.header.string_count ≤ 0xFFFFFFFF →
      i < p.header.string_count →
      p.get i = .ok p.strings[i]? ∧ p.strings[i]? ≠ none) := by
  constructor
  · intro p
    unfold StringPool.get
    rw [if_neg (by norm_num), if_pos rfl]
  · intro p i hlen hcnt hi
    unfold StringPool.get
    rw [if_neg (by omega), if_neg (by omega)]
    have hi' : i < p.strings.length := by omega
    rw [List.getElem?_eq_getElem hi']
    exact ⟨rfl, by simp⟩

/-- C4 witness: sentinel and lookup behaviour at the concrete `samplePool`. -/
theorem c4_witness :
    samplePool.get 0xFFFFFFFF = .ok none ∧
    samplePool.get 0 = .ok samplePool.strings[0]? ∧
    samplePool.strings[0]? ≠ none :=
  ⟨c4_get.1 samplePool,
   (c4_get.2 samplePool 0 (by decide) (by decide) (by decide)).1,
   (c4_get.2 samplePool 0 (by decide) (by decide) (by decide)).2⟩

/-- C5, counterexample: encoding `["a"]` into the layout exactly as the spec
words it — `string_start` measured with `HEADER_SIZE` = 20, i.e.
`string_start = 20 + 4·count` — and decoding does not reproduce the strings:
the decoder subtracts its 28-byte `STRINGPOOL_HEADER_SIZE`, underflows, and
the decode fails instead of returning `["a"]`. -/
theorem c5_counterexample :
    StringPool.read_from_file (encodePool SPEC_HEADER_SIZE true [[0x61]]) 0
      ⟨0, 28, poolChunkSize true [[0x61]]⟩ = .error .fatal ∧
    (StringPool.read_from_file (encodePool SPEC_HEADER_SIZE true [[0x61]]) 0
      ⟨0, 28, poolChunkSize true [[0x61]]⟩).map (fun r => r.1.strings)
      ≠ .ok [[0x61]] :=
  ⟨rfl, by decide⟩

/-- C5 (amended): the round-trip holds once `string_start` is expressed the
way the code's arithmetic expects — relative to the start of the generic
chunk header, i.e. `string_start = STRINGPOOL_HEADER_SIZE + 4·count` with
`STRINGPOOL_HEADER_SIZE` = 28 — for every list of strings whose encoded
lengths fit the short length field (UTF-8: < 128 bytes; UTF-16: < 32768
units) and whose total chunk size fits a `u32`: encoding and decoding
reproduces the original strings in order, in both encodings. -/
theorem c5_roundtrip (utf8 : Bool) (strs : List RString)
    (hf : ∀ s ∈ strs, FitsShort utf8 s)
    (hsize : poolChunkSize utf8 strs < 4294967296) :
    (StringPool.read_from_file (encodePool STRINGPOOL_HEADER_SIZE utf8 strs) 0
      ⟨0, 28, poolChunkSize utf8 strs⟩).map (fun r => r.1.strings)
      = .ok strs := by
  rw [encodePool_decode utf8 strs hf hsize]
  rfl

/-- C5 witness: the round-trip at the concrete pools `["foo", "bar"]`
(UTF-8) and `["😀", "b"]` (UTF-16). -/
theorem c5_witness :
    (StringPool.read_from_file
      (encodePool STRINGPOOL_HEADER_SIZE true [[102, 111, 111], [98, 97, 114]])
      0 ⟨0, 28, poolChunkSize true [[102, 111, 111], [98, 97, 114]]⟩).map
      (fun r => r.1.strings) = .ok [[102, 111, 111], [98, 97, 114]] ∧
    (StringPool.read_from_file
      (encodePool STRINGPOOL_HEADER_SIZE false [[0x1F600], [98]])
      0 ⟨0, 28, poolChunkSize false [[0x1F600], [98]]⟩).map
      (fun r => r.1.strings) = .ok [[0x1F600], [98]] :=
  ⟨c5_roundtrip true [[102, 111, 111], [98, 97, 114]] (by decide) (by decide),
   c5_roundtrip false [[0x1F600], [98]] (by decide) (by decide)⟩

/-- C6: a length prefix with its high bit set (UTF-8: length byte ≥ 0x80;
UTF-16: 16-bit length ≥ 0x8000) makes the decoder fail with the
`unimplemented` outcome; the statement quantifies over all bytes beyond the
length prefix, so no further byte of the entry is read or interpreted. -/
theorem c6_high_bit :
    (∀ (d : List Nat) (pos b0 b : Nat),
      d[pos]? = some b0 → d[pos + 1]? = some b →
      is_high_bit_set_8 b = true →
      parse_utf8_string d pos = .error .unimplemented) ∧
    (∀ (d : List Nat) (pos lo hi : Nat),
      d[pos]? = some lo → d[pos + 1]? = some hi →
      is_high_bit_set_16 (lo + 256 * hi) = true →
      parse_utf16_string d pos = .error .unimplemented) := by
  constructor
  · intro d pos b0 b h0 h1 hbit
    unfold parse_utf8_string
    rw [read_u8_some h0]
    simp only [okBind]
    rw [read_u8_some h1]
    simp only [okBind]
    rw [if_pos hbit]
  · intro d pos lo hi h0 h1 hbit
    have h16 : read_u16 d pos = .ok (lo + 256 * hi, pos + 2) := by
      unfold read_u16
      rw [read_u8_some h0]
      simp only [okBind]
      rw [read_u8_some h1]
      simp only [okBind]
    unfold parse_utf16_string
    rw [h16]
    simp only [okBind]
    rw [if_pos hbit]

/-- C6 witness: both decoders abort with `unimplemented` on the two-byte
input `[0x00, 0x80]` (UTF-8 length byte 0x80; UTF-16 length 0x8000). -/
theorem c6_witness :
    parse_utf8_string [0, 128] 0 = .error .unimplemented ∧
    parse_utf16_string [0, 128] 0 = .error .unimplemented :=
  ⟨c6_high_bit.1 [0, 128] 0 0 128 rfl rfl rfl,
   c6_high_bit.2 [0, 128] 0 0 128 rfl rfl rfl⟩

/-- C7: a zero length prefix decodes to the empty string and still consumes
the trailing terminator: the UTF-8 decoder consumes exactly 3 bytes (skipped
byte, length byte, terminator) and the UTF-16 decoder exactly 4 bytes
(length unit, terminator unit). -/
theorem c7_zero_length :
    (∀ (d : List Nat) (pos b0 t : Nat),
      d[pos]? = some b0 → d[pos + 1]? = some 0 → d[pos + 2]? = some t →
      parse_utf8_string d pos = .ok ([], pos + 3)) ∧
    (∀ (d : List Nat) (pos t0 t1 : Nat),
      d[pos]? = some 0 → d[pos + 1]? = some 0 →
      d[pos + 2]? = some t0 → d[pos + 3]? = some t1 →
      parse_utf16_string d pos = .ok ([], pos + 4)) := by
  constructor
  · intro d pos b0 t h0 h1 h2
    unfold parse_utf8_string
    rw [read_u8_some h0]
    simp only [okBind]
    rw [read_u8_some h1]
    simp only [okBind]
    rw [if_neg (by decide)]
    rw [show readBytes8 d 0 (pos + 1 + 1) = .ok ([], pos + 1 + 1) from rfl]
    simp only [okBind]
    rw [show pos + 1 + 1 = pos + 2 from rfl]
    rw [read_u8_some h2]
    simp only [okBind]
    rfl
  · intro d pos t0 t1 h0 h1 h2 h3
    have hlen : read_u16 d pos = .ok (0, pos + 2) := by
      unfold read_u16
      rw [read_u8_some h0]
      simp only [okBind]
      rw [read_u8_some h1]
      simp only [okBind]
    have hterm : read_u16 d (pos + 2) = .ok (t0 + 256 * t1, pos + 4) := by
      unfold read_u16
      rw [show pos + 2 + 1 = pos + 3 from rfl] at h3
      rw [read_u8_some h2]
      simp only [okBind]
      rw [show pos + 2 + 1 = pos + 3 from rfl]
      rw [read_u8_some h3]
      simp only [okBind]
    unfold parse_utf16_string
    rw [hlen]
    simp only [okBind]
    rw [if_neg (by decide)]
    rw [show readUnits16 d 0 (pos + 2) = .ok ([], pos + 2) from rfl]
    simp only [okBind]
    rw [hterm]
    simp only [okBind]
    rfl

/-- C7 witness: zero-length entries at concrete inputs: the UTF-8 decoder
consumes 3 bytes of `[7, 0, 9]`, the UTF-16 decoder 4 bytes of
`[0, 0, 5, 6]` (both with nonzero bytes in the terminator position). -/
theorem c7_witness :
    parse_utf8_string [7, 0, 9] 0 = .ok ([], 3) ∧
    parse_utf16_string [0, 0, 5, 6] 0 = .ok ([], 4) :=
  ⟨c7_zero_length.1 [7, 0, 9] 0 7 9 rfl rfl rfl,
   c7_zero_length.2 [0, 0, 5, 6] 0 5 6 rfl rfl rfl rfl⟩

/-- C8: when the stream cannot supply the requested bytes, the decode
returns the read/EOF error and no pool: (a) a header-field read past the end
of input; (b) an offset-table read past the end of input; (c) any failure of
any string read — first or later entry, at its first byte or mid-entry —
propagates its error (EOF for an exhausted stream) out of the whole decode.
The `Except` result type itself guarantees that no partially populated pool
accompanies an error. -/
theorem c8_eof_propagation :
    (∀ (d : List Nat) (p0 : Nat) (ch : ChunkHeader),
      d.length < p0 + 20 →
      StringPool.read_from_file d p0 ch = .error .eof) ∧
    (∀ (d : List Nat) (p0 : Nat) (ch : ChunkHeader) (hdr : StringPoolHeader),
      StringPoolHeader.read_from_file d p0 ch = .ok (hdr, p0 + 20) →
      hdr.style_count = 0 → 1 ≤ hdr.string_count →
      d.length < p0 + 20 + 4 * hdr.string_count →
      StringPool.read_from_file d p0 ch = .error .eof) ∧
    (∀ (d : List Nat) (p0 : Nat) (ch : ChunkHeader) (hdr : StringPoolHeader)
      (offsets : List Nat) (pOff i off : Nat) (e : Err),
      StringPoolHeader.read_from_file d p0 ch = .ok (hdr, p0 + 20) →
      hdr.style_count = 0 →
      readOffsets d hdr.string_count (p0 + 20) = .ok (offsets, pOff) →
      STRINGPOOL_HEADER_SIZE ≤ hdr.string_start →
      offsets[i]? = some off →
      (∀ j, j < i → ∀ off', offsets[j]? = some off' →
        ∃ r, (if hdr.flags &&& (1 <<< 8) != 0
          then parse_utf8_string d
            (p0 + 20 + (hdr.string_start - STRINGPOOL_HEADER_SIZE) + off')
          else parse_utf16_string d
            (p0 + 20 + (hdr.string_start - STRINGPOOL_HEADER_SIZE) + off'))
          = .ok r) →
      (if hdr.flags &&& (1 <<< 8) != 0
        then parse_utf8_string d
          (p0 + 20 + (hdr.string_start - STRINGPOOL_HEADER_SIZE) + off)
        else parse_utf16_string d
          (p0 + 20 + (hdr.string_start - STRINGPOOL_HEADER_SIZE) + off))
        = .error e →
      StringPool.read_from_file d p0 ch = .error e) := by
  refine ⟨?_, ?_, ?_⟩
  · intro d p0 ch hlen
    unfold StringPool.read_from_file
    rw [header_eof hlen, errorBind]
  · intro d p0 ch hdr hh hstyle hcnt hlen
    unfold StringPool.read_from_file
    rw [hh]
    simp only [okBind]
    rw [if_neg (by rw [hstyle]; simp)]
    rw [readOffsets_eof hcnt hlen, errorBind]
  · intro d p0 ch hdr offsets pOff i off e hh hstyle hoff hss hget hprev herr
    unfold StringPool.read_from_file
    rw [hh]
    simp only [okBind]
    rw [if_neg (by rw [hstyle]; simp)]
    rw [hoff]
    simp only [okBind]
    rw [u32checkedSub_ok hss]
    simp only [okBind]
    rw [readStrings_err_at hget hprev herr, errorBind]

/-- C8 witness: (a) the empty input; (b) `shortOffsetsData`, whose offset
table is missing; (c) `shortStringData`, whose only string starts past the
end; (d) `gap2Data`, whose second string's content is truncated mid-entry. -/
theorem c8_witness :
    StringPool.read_from_file [] 0 sampleCh = .error .eof ∧
    StringPool.read_from_file shortOffsetsData 0 sampleCh = .error .eof ∧
    StringPool.read_from_file shortStringData 0 sampleCh = .error .eof ∧
    StringPool.read_from_file gap2Data 0 sampleCh = .error .eof :=
  ⟨c8_eof_propagation.1 [] 0 sampleCh (by decide),
   c8_eof_propagation.2.1 shortOffsetsData 0 sampleCh ⟨sampleCh, 1, 0, 0, 0, 0⟩
     rfl rfl (by decide) (by decide),
   c8_eof_propagation.2.2 shortStringData 0 sampleCh
     ⟨sampleCh, 1, 0, 256, 28, 0⟩ [9] 24 0 9 .eof rfl rfl rfl (by decide) rfl
     (by intro j hj off' h'; omega) rfl,
   c8_eof_propagation.2.2 gap2Data 0 sampleCh
     ⟨sampleCh, 2, 0, 256, 36, 0⟩ [0, 4] 28 1 4 .eof rfl rfl rfl (by decide) rfl
     (by
       intro j hj off' h'
       have hj0 : j = 0 := by omega
       subst hj0
       have hoff' : off' = 0 := by simpa using h'.symm
       subst hoff'
       exact ⟨([0x61], 32), rfl⟩)
     rfl⟩

/-- C9: the trailing terminator is discarded without validation: two inputs
that differ only in the byte (UTF-8) or 16-bit unit (UTF-16) in the
terminator position parse to exactly the same result — in particular a
nonzero terminator decodes to the same string as a zero one. -/
theorem c9_terminator_ignored :
    (∀ (d1 d2 : List Nat) (pos b0 l tA tB : Nat) (content t : List Nat),
      d1.drop pos = b0 :: l :: (content ++ tA :: t) →
      d2.drop pos = b0 :: l :: (content ++ tB :: t) →
      content.length = l → l < 128 →
      parse_utf8_string d1 pos = parse_utf8_string d2 pos) ∧
    (∀ (d1 d2 : List Nat) (pos n tA0 tA1 tB0 tB1 : Nat) (us t : List Nat),
      d1.drop pos = u16le n ++ ((us.map u16le).flatten ++ (tA0 :: tA1 :: t)) →
      d2.drop pos = u16le n ++ ((us.map u16le).flatten ++ (tB0 :: tB1 :: t)) →
      us.length = n → n < 32768 → (∀ u ∈ us, u < 65536) →
      parse_utf16_string d1 pos = parse_utf16_string d2 pos) := by
  constructor
  · intro d1 d2 pos b0 l tA tB content t h1 h2 hl hlt
    rw [parse_utf8_drop h1 hl hlt, parse_utf8_drop h2 hl hlt]
  · intro d1 d2 pos n tA0 tA1 tB0 tB1 us t h1 h2 hn hlt hu
    rw [parse_utf16_drop h1 hn hlt hu, parse_utf16_drop h2 hn hlt hu]

/-- C9 witness: a one-byte UTF-8 string with terminator byte 7 versus 0, and
a one-unit UTF-16 string with terminator unit 0x0909 versus 0, decode
identically. -/
theorem c9_witness :
    parse_utf8_string [0, 1, 97, 7] 0 = parse_utf8_string [0, 1, 97, 0] 0 ∧
    parse_utf16_string [1, 0, 97, 0, 9, 9] 0
      = parse_utf16_string [1, 0, 97, 0, 0, 0] 0 :=
  ⟨c9_terminator_ignored.1 [0, 1, 97, 7] [0, 1, 97, 0] 0 0 1 7 0 [97] []
     rfl rfl rfl (by decide),
   c9_terminator_ignored.2 [1, 0, 97, 0, 9, 9] [1, 0, 97, 0, 0, 0] 0 1 9 9 0 0
     [97] [] rfl rfl rfl (by decide) (by decide)⟩

/-- C10: the `style_start` header field does not influence decoding: for two
inputs of equal length that agree everywhere except possibly on the four
`style_start` bytes (offsets `p0+16 .. p0+20`), the decode results are equal
once the stored `style_start` field is erased — same strings, same final
position, same error behaviour; only `header.style_start` may differ. -/
theorem c10_style_start_noninterference (d1 d2 : List Nat) (p0 : Nat)
    (ch : ChunkHeader)
    (hlen : d1.length = d2.length)
    (htake : d1.take (p0 + 16) = d2.take (p0 + 16))
    (hdrop : d1.drop (p0 + 20) = d2.drop (p0 + 20)) :
    Except.map eraseStyleStart (StringPool.read_from_file d1 p0 ch)
      = Except.map eraseStyleStart (StringPool.read_from_file d2 p0 ch) := by
  unfold StringPool.read_from_file
  rcases header_congr ch hlen htake with
    ⟨h1, h2, hh1, hh2, hcc, hsc, hstc, hfl, hss⟩ | ⟨he1, he2⟩
  · rw [hh1, hh2]
    simp only [okBind]
    by_cases hstyle : h2.style_count ≠ 0
    · rw [if_pos (by rw [hstc]; exact hstyle), if_pos hstyle]
    · rw [if_neg (by rw [hstc]; exact hstyle), if_neg hstyle]
      rw [hsc, readOffsets_congr hdrop (le_refl _)]
      cases hoff : readOffsets d2 h2.string_count (p0 + 20) with
      | error e => rfl
      | ok osp =>
      obtain ⟨offsets, pOff⟩ := osp
      simp only [okBind]
      rw [hss]
      by_cases hssub : h2.string_start < STRINGPOOL_HEADER_SIZE
      · rw [show u32checkedSub h2.string_start STRINGPOOL_HEADER_SIZE
            = .error .fatal from by unfold u32checkedSub; rw [if_pos hssub]]
        simp only [errorBind, mapError]
      · push_neg at hssub
        rw [u32checkedSub_ok hssub]
        simp only [okBind]
        rw [hfl, readStrings_congr hdrop (by omega) (by omega)]
        cases hstr : readStrings d2 (h2.flags &&& (1 <<< 8) != 0)
            (p0 + 20 + (h2.string_start - STRINGPOOL_HEADER_SIZE)) offsets
            (p0 + 20 + (h2.string_start - STRINGPOOL_HEADER_SIZE)) with
        | error e => rfl
        | ok ssp =>
        obtain ⟨strs, pStr⟩ := ssp
        simp only [okBind]
        rw [hcc]
        by_cases hszsub : h2.chunk_header.size < STRINGPOOL_HEADER_SIZE
        · rw [show u32checkedSub h2.chunk_header.size STRINGPOOL_HEADER_SIZE
              = .error .fatal from by unfold u32checkedSub; rw [if_pos hszsub]]
          simp only [errorBind, mapError]
        · push_neg at hszsub
          rw [u32checkedSub_ok hszsub]
          simp only [okBind, mapOk]
          unfold eraseStyleStart
          cases h1 with
          | mk cc1 sc1 stc1 fl1 ss1 styst1 =>
          cases h2 with
          | mk cc2 sc2 stc2 fl2 ss2 styst2 =>
          simp_all
  · rw [he1, he2]
    simp only [errorBind, mapError]

/-- C10 witness: `sampleData` and `sampleDataStyle` differ only in the
`style_start` field (byte 16); their decodes agree up to the stored
`style_start`. -/
theorem c10_witness :
    Except.map eraseStyleStart (StringPool.read_from_file sampleData 0 sampleCh)
      = Except.map eraseStyleStart
        (StringPool.read_from_file sampleDataStyle 0 sampleCh) :=
  c10_style_start_noninterference sampleData sampleDataStyle 0 sampleCh
    rfl rfl rfl

end Axml
